import Mathlib

/-!
# Verification of the `matroid-rs` library against its specification

This file gives a shallow embedding in Lean 4 of the parts of the Rust
library `matroid-rs` that the verified claims are about:

* `src/set.rs` — the bit-pattern subset type `Set` (a `usize`), its algebra
  (`union`, `intersect`, `difference`, `remove_element`, `extend`,
  `union_of_sets`, `leftmost_element`, …) and the subset enumerator
  `SetIterator` with its cardinality policies;
* `src/matroid/matroid.rs` — the rank-oracle matroid abstraction and its
  generic algorithms (`nullity`, `is_cycle`, `is_circuit`, `is_independent`,
  `circuits`);
* `src/matroid/uniform.rs`, `src/matroid/bases_matroid.rs`,
  `src/matroid/dual.rs` — the uniform, basis-table and dual matroids;
* `src/matroid/combinatorial_derived.rs` — the fast-path and general-path
  combinatorial-derived-matroid algorithms.

Machine integers: a Rust `usize` is modelled as a `Nat` together with
explicit reductions `% 2 ^ 64` at the operations where a 64-bit machine
word can overflow.  Shifts model Rust *release* semantics: the shift
amount is masked (`b % 64`) and shifted-out bits are discarded
(debug builds would panic on a shift amount of 64 or more; the claims
settled at the word-width boundary hold in either semantics, and the
modelled one is the defined release behaviour).  Loops are modelled as
fuel-indexed structural recursions so that all definitions are
executable by the kernel; theorems quantify over all sufficiently large
fuels, which captures both the produced elements and exhaustion of the
Rust iterator.
-/

/-- Number of value bits of `usize` on the 64-bit targets the crate supports
(`usize::BITS`). -/
def wordBits : Nat := 64

/-- `2 ^ 64`, the number of values of `usize`. -/
def usizeSize : Nat := 2 ^ 64

/-- Rust release-mode `a << b` on `usize`: the shift amount is masked by the
word width and the result is truncated to 64 bits. -/
def rshl (a b : Nat) : Nat := (a <<< (b % 64)) % usizeSize

/-- Rust release-mode `a >> b` on `usize`: the shift amount is masked by
the word width (the value needs no truncation for `a < 2^64`). -/
def rshr (a b : Nat) : Nat := a >>> (b % 64)

/-- Rust release-mode `a + b` on `usize` (wrapping). -/
def wadd (a b : Nat) : Nat := (a + b) % usizeSize

/-- Rust release-mode `a - b` on `usize` (wrapping). -/
def wsub (a b : Nat) : Nat := (a + usizeSize - b % usizeSize) % usizeSize

/-- Rust `!m` on `usize` (bitwise complement within 64 bits), for `m < 2^64`. -/
def compl64 (m : Nat) : Nat := (usizeSize - 1) ^^^ m

/-- Fuel-indexed population count; `popCountF f x` agrees with the number of
set bits of `x` whenever `x ≤ f`. -/
def popCountF : Nat → Nat → Nat
  | 0, _ => 0
  | f + 1, x => if x = 0 then 0 else x % 2 + popCountF f (x / 2)

/-- Population count of a natural number; models `usize::count_ones` from
`Set::size` in `src/set.rs`. -/
def popCount (x : Nat) : Nat := popCountF x x

/-- Fuel-indexed base-2 logarithm; agrees with `Nat.log2` for `x ≤ f`. -/
def log2F : Nat → Nat → Nat
  | 0, _ => 0
  | f + 1, x => if 2 ≤ x then log2F f (x / 2) + 1 else 0

/-- Executable base-2 logarithm (`log2F` with enough fuel). -/
def elog2 (x : Nat) : Nat := log2F x x

/-- Round a natural number to the nearest `f32` value (IEEE-754 binary32,
round-to-nearest, ties-to-even), returned as an exact natural number.
This models the Rust conversion `content as f32` in
`Set::leftmost_element`: integers below `2 ^ 24` are exact; larger ones are
rounded at granularity `2 ^ (log2 x - 23)`. -/
def f32ofNat (x : Nat) : Nat :=
  if x < 2 ^ 24 then x
  else
    let e := elog2 x
    let g := 2 ^ (e - 23)
    let q := x / g
    let r := x % g
    if 2 * r < g then q * g
    else if 2 * r > g then (q + 1) * g
    else if q % 2 = 0 then q * g else (q + 1) * g

namespace RSet

/-! Model of `struct Set { content: usize }` from `src/set.rs`.  A set value
is its `content` field, a `Nat` below `2 ^ 64`. -/

/-- `Set::empty`. -/
def empty : Nat := 0

/-- `Set::of_size(n)`: `(1 << n) - 1`.  Note that in release builds the shift
is masked, so `of_size 64 = 0`. -/
def of_size (n : Nat) : Nat := rshl 1 n - 1

/-- `Set::leftmost_element`: `(self.content as f32).log2() as usize`.
The `f32` conversion is modelled exactly (`f32ofNat`); `f32::log2` is
modelled as the exact base-2 logarithm of the (exactly represented)
rounded value, which is what a correctly rounded `log2` returns on exact
powers of two and, more generally, never undercuts.  The theorems that rely
on this function are proved robustly for every overapproximation of the
true bit index, matching that modelling freedom. -/
def leftmost_element (x : Nat) : Nat := elog2 (f32ofNat x)

/-- `Set::size` (population count). -/
def size (x : Nat) : Nat := popCount x

/-- `Set::union`. -/
def union (x y : Nat) : Nat := x ||| y

/-- `Set::intersect`. -/
def intersect (x y : Nat) : Nat := x &&& y

/-- `Set::difference`: `self.content & !other.content`. -/
def difference (x y : Nat) : Nat := x &&& compl64 y

/-- `Set::remove_element`: `self.content & !(1 << element)`. -/
def remove_element (x e : Nat) : Nat := x &&& compl64 (rshl 1 e)

/-- `Set::add_element`: `self.content | (1 << element)`. -/
def add_element (x e : Nat) : Nat := x ||| rshl 1 e

/-- `Set::contains_element`: `self.content & (1 << element) != 0`. -/
def contains_element (x e : Nat) : Bool := x &&& rshl 1 e != 0

/-- `Set::is_empty`. -/
def is_empty (x : Nat) : Bool := x == 0

/-- The loop of `Set::extend`, with the two loop bounds `s = sl` and
`k = kl` passed explicitly (`i`/`j`/`content` are the mutable locals;
the fuel is one more than the remaining iterations of `j`).  The shifts
are the release-mode masked ones: when `leftmost_element` answers the
word width itself (an `f32` artefact possible for `t ≥ 2^64 - 2^39`),
`j` reaches `64` and the loop reads and writes bit `0`. -/
def extendLoop (s t sl kl : Nat) : Nat → Nat → Nat → Nat → Nat
  | 0, _, _, content => content
  | fuel + 1, i, j, content =>
    if i ≤ sl ∧ j ≤ kl then
      if rshr t j &&& 1 == 1 then
        extendLoop s t sl kl fuel (i + 1) (j + 1) (content ||| rshl (rshr s i &&& 1) j)
      else
        extendLoop s t sl kl fuel i (j + 1) content
    else content

/-- `Set::extend`: re-index the bits of `s` along the set bits of `t`. -/
def extend (s t : Nat) : Nat :=
  let sl := leftmost_element s
  let kl := leftmost_element t
  extendLoop s t sl kl (kl + 2) 0 0 0

/-- `Set::union_of_sets`: union of the entries of `sets` selected by the
set bits of `self` (`(0..=leftmost).filter(contains).fold(empty, union)`).
Out-of-bounds indexing (a Rust panic) is modelled by `getD _ 0`; all
callers in the embedded code satisfy the documented length precondition. -/
def union_of_sets (x : Nat) (sets : List Nat) : Nat :=
  ((List.range (leftmost_element x + 1)).filter (fun i => contains_element x i)).foldl
    (fun acc i => acc ||| sets.getD i 0) 0

/-- `PartialOrd for Set`, `≤` case: subset-or-equal (`intersect = self`). -/
def subsetLE (x y : Nat) : Bool := x &&& y == x

/-- `PartialOrd for Set`, `<` case: proper subset. -/
def subsetLT (x y : Nat) : Bool := (x &&& y == x) && (x != y)

end RSet

/-! ## Model of `SetIterator` from `src/set.rs` -/

/-- `enum LimitPolicy`. -/
inductive RLimitPolicy where
  | lt
  | le
  | eq
  | ge
  | gt
deriving DecidableEq, Repr

/-- `struct SetIterator`. -/
structure SIter where
  current : Nat
  n : Nat
  size_limit : Option Nat
  limit_policy : Option RLimitPolicy
deriving Repr

namespace SIter

/-- `SetIterator::new`: panics (modelled as `.error`) when `n` exceeds the
word width, otherwise starts at `current = 0` with no size limit. -/
def new? (n : Nat) : Except String SIter :=
  if n > wordBits then
    .error "tried to create a set iterator on more elements than supported"
  else
    .ok ⟨0, n, none, none⟩

/-- `SetIterator::size_limit` (also installs the `Equal` policy). -/
def with_size_limit (it : SIter) (l : Nat) : SIter :=
  { it with size_limit := some l, limit_policy := some .eq }

/-- `SetIterator::equal`. -/
def equal (it : SIter) : SIter := { it with limit_policy := some .eq }

/-- `SetIterator::smaller`. -/
def smaller (it : SIter) : SIter := { it with limit_policy := some .lt }

/-- `SetIterator::smaller_equal`. -/
def smaller_equal (it : SIter) : SIter := { it with limit_policy := some .le }

/-- `SetIterator::greater`. -/
def greater (it : SIter) : SIter := { it with limit_policy := some .gt }

/-- `SetIterator::greater_equal`. -/
def greater_equal (it : SIter) : SIter := { it with limit_policy := some .ge }

/-- `SetIterator::satisfy_limit`.  The source unwraps `size_limit`, so an
iterator with a scanning policy but no limit — reachable through the
public builders, e.g. `SetIterator::new(n).smaller()` — panics on the
first yield.  The model does not represent that panic (the wildcard arm
returns `true`); the theorems below therefore quantify only over
iterators with no policy or with a set limit, where the model is
faithful. -/
def satisfy_limit (it : SIter) (item : Nat) : Bool :=
  match it.limit_policy, it.size_limit with
  | some .lt, some l => popCount item < l
  | some .le, some l => popCount item ≤ l
  | some .eq, some l => popCount item == l
  | some .ge, some l => l ≤ popCount item
  | some .gt, some l => l < popCount item
  | _, _ => true

/-- The search `while (self.current >> i) & 3 != 1 { i += 1 }` of
`set_next`; fuel `64` reaches every bit position of a `usize`. -/
def find01F : Nat → Nat → Nat → Nat
  | 0, _, i => i
  | f + 1, x, i => if (x >>> i) &&& 3 == 1 then i else find01F f x (i + 1)

/-- Lowest `i` with bit `i` set and bit `i+1` clear (the `01` boundary). -/
def find01 (x : Nat) : Nat := find01F 64 x 0

/-- The successor computation of `set_next` under the `Equal` policy:
move the boundary bit left, repack the lower bits at the bottom. -/
def gosperStep (cur : Nat) : Nat :=
  let i := find01 cur
  let c1 := cur ^^^ rshl 3 i
  let low := c1 &&& (rshl 1 i - 1)
  let c2 := c1 &&& compl64 (rshl 1 i - 1)
  c2 ||| (rshl 1 (popCount low) - 1)

/-- The scan-and-filter loop of `set_next` for every policy other than
`Equal` (`while !satisfy_limit { current += 1; bail out at 2^n }`). -/
def scanLoop : Nat → SIter → Option Nat × SIter
  | 0, it => (none, it)
  | f + 1, it =>
    if satisfy_limit it it.current then
      (some it.current, { it with current := wadd it.current 1 })
    else
      let c := wadd it.current 1
      if c ≥ rshl 1 it.n then (none, { it with current := c })
      else scanLoop f { it with current := c }

/-- `SetIterator::set_next` (the fuel only feeds the scan loop). -/
def setNext (fuel : Nat) (it : SIter) : Option Nat × SIter :=
  match it.limit_policy with
  | some .eq =>
    match it.size_limit with
    | none => (none, it)
    | some limit =>
      if it.current == 0 ∧ limit > 0 then
        let c := rshl 1 limit - 1
        (some c, { it with current := c })
      else if it.current ≥ rshl 1 it.n then (none, it)
      else if limit == 0 then
        (some 0, { it with current := rshl 1 it.n })
      else
        let c := gosperStep it.current
        if c ≥ rshl 1 it.n then (none, { it with current := c })
        else (some c, { it with current := c })
  | _ => scanLoop fuel it

/-- `Iterator::next for SetIterator`. -/
def next (fuel : Nat) (it : SIter) : Option Nat × SIter :=
  if it.current ≥ rshl 1 it.n then (none, it) else setNext fuel it

/-- The (finite) list of values produced by repeatedly calling `next`;
the fuel bounds both the number of yields and each internal scan, and
theorems hold for every sufficiently large fuel, which also expresses
that the iterator is exhausted afterwards. -/
def run : SIter → Nat → List Nat
  | _, 0 => []
  | it, f + 1 =>
    match next (f + 1) it with
    | (none, _) => []
    | (some x, it') => x :: run it' f

end SIter

/-- The iterator `SetIterator::new(n).size_limit(c).equal()` (as used by
`bases`, `par_circuits`, the derivation, …), assuming `n ≤ 64` so that
construction succeeds. -/
def equalIter (n c : Nat) : SIter := ⟨0, n, some c, some .eq⟩

/-- The iterator `SetIterator::new(n).size_limit(c).smaller_equal()`. -/
def leIter (n c : Nat) : SIter := ⟨0, n, some c, some .le⟩

/-- The iterator `SetIterator::new(n).size_limit(c).greater_equal()`. -/
def geIter (n c : Nat) : SIter := ⟨0, n, some c, some .ge⟩

/-- The iterator `SetIterator::new(n)` in default mode. -/
def allIter (n : Nat) : SIter := ⟨0, n, none, none⟩

/-! ## Model of the matroid abstraction (`src/matroid/matroid.rs`) -/

/-- A rank-oracle matroid instance: the `Matroid` trait's capability
`{n(), k(), rank(subset)}`.  Concrete variants below fill in `rank`. -/
structure RMatroid where
  n : Nat
  k : Nat
  rank : Nat → Nat

namespace RMatroid

/-- `Matroid::nullity` (with its full-ground-set special case). -/
def nullity (m : RMatroid) (x : Nat) : Nat :=
  if popCount x = m.n then m.n - m.k else popCount x - m.rank x

/-- `Matroid::is_independent`. -/
def is_independent (m : RMatroid) (x : Nat) : Bool :=
  m.rank x == popCount x

/-- `Matroid::is_cycle`: nonempty, and removing any ground-set element
never changes the rank. -/
def is_cycle (m : RMatroid) (x : Nat) : Bool :=
  if x == 0 then false
  else (List.range m.n).all (fun i => m.rank (RSet.remove_element x i) == m.rank x)

/-- `Matroid::is_circuit`: nullity one (computed directly as
`size - rank`) and `is_cycle`. -/
def is_circuit (m : RMatroid) (x : Nat) : Bool :=
  (popCount x - m.rank x == 1) && m.is_cycle x

/-- `Matroid::circuits`: subsets of size at most `k + 1` (a scan with the
`LessEqual` policy), filtered by `is_circuit`. -/
def circuitsList (m : RMatroid) (fuel : Nat) : List Nat :=
  (SIter.run (leIter m.n (m.k + 1)) fuel).filter (fun s => m.is_circuit s)

/-- `Matroid::is_equal`: same `n`, same `k`, and the same
independent/dependent classification of every subset of the ground set. -/
def is_equalProp (m o : RMatroid) : Prop :=
  m.n = o.n ∧ m.k = o.k ∧
    ∀ x < 2 ^ m.n, m.is_independent x = o.is_independent x

end RMatroid

/-- `UniformMatroid::new(k, n)` with its rank oracle
`min(subset.size(), k)` (`src/matroid/uniform.rs`). -/
def uniformMatroid (k n : Nat) : RMatroid :=
  ⟨n, k, fun x => min (popCount x) k⟩

/-- `BasesMatroid::rank_of_subset_given_bases`: running maximum of
`|base ∩ subset|` with the early break once the maximum reaches the
current base's size. -/
def rankGivenBases (x : Nat) : List Nat → Nat → Nat
  | [], m => m
  | b :: rest, m =>
    let i := popCount (b &&& x)
    let m' := if i > m then i else m
    if m' == popCount b then m' else rankGivenBases x rest m'

/-- `BasesMatroid::new(bases, n, k)` (`src/matroid/bases_matroid.rs`). -/
def basesMatroid (bases : List Nat) (n k : Nat) : RMatroid :=
  ⟨n, k, fun x => rankGivenBases x bases 0⟩

/-- `Dual::from` (`src/matroid/dual.rs`): ground set size `n`, rank
`n - k`, and rank oracle
`m.rank(of_size(n).difference(subset)) + subset.size() - m.k()`.
The `usize` subtractions are wrapping (release mode). -/
def dualM (m : RMatroid) : RMatroid :=
  ⟨m.n, wsub m.n m.k,
    fun x => wsub (wadd (m.rank (RSet.difference (RSet.of_size m.n) x)) (popCount x)) m.k⟩

/-! ## Model of the combinatorial derived matroid
(`src/matroid/combinatorial_derived.rs`)

The Rust implementation accumulates into a concurrent `DashSet` whose
iteration order is unspecified; every downstream consumer (inclusion
minimality, the fixed-point cardinality test, basis extraction) depends
only on the underlying *set* of patterns, so the model fixes a concrete
deduplicated order. -/

/-- Deduplicating insert modelling `DashSet::insert`. -/
def insertIfAbsent (acc : List Nat) (x : Nat) : List Nat :=
  if acc.contains x then acc else x :: acc

/-- Inner body of `epsilon` for the pair `(di, dj)`: when the guard
passes, insert `(di ∪ dj) \ {e}` for every element `e` of `di ∩ dj`
(selected via `Set::from(1 << count).extend(&intersect)`) whose removal
keeps the size within `rank`. -/
def epsPair (dependents : List Nat) (rank di dj : Nat) (acc : List Nat) : List Nat :=
  let inter := di &&& dj
  if popCount di + popCount dj - popCount inter - 1 > rank then acc
  else if (popCount inter < 3 ∧ popCount inter > 0)
      ∨ (popCount inter ≥ 3 ∧ ¬ dependents.any (fun b => RSet.subsetLE b inter)) then
    (List.range (popCount inter)).foldl
      (fun acc2 count =>
        let elem := RSet.extend (rshl 1 count) inter
        let s := RSet.difference (RSet.union di dj) elem
        if popCount s ≤ rank then insertIfAbsent acc2 s else acc2)
      acc
  else acc

/-- The outer pair loop of `epsilon`
(`for i in 0..(dependents.len() - 1)`), processed structurally: for each
`dependents[i]` with a nonempty tail, insert `dependents[i]`, then fold
`epsPair` over the partners `dependents[j]`, `j > i`.  Indexed access
`dependents[i]`/`dependents[j]` is realised by walking the list, which
visits exactly the same element pairs in the same order. -/
def epsRows (dependents : List Nat) (rank : Nat) : List Nat → List Nat → List Nat
  | acc, [] => acc
  | acc, di :: rest =>
    if rest.isEmpty then acc
    else
      epsRows dependents rank
        (rest.foldl (fun acc2 dj => epsPair dependents rank di dj acc2)
          (insertIfAbsent acc di))
        rest

/-- `epsilon(dependents, rank)`: all current members are retained and the
pairwise closure results are added, deduplicated (the trailing insert is
the source's unconditional retention of `dependents[len - 1]`). -/
def epsilon (dependents : List Nat) (rank : Nat) : List Nat :=
  insertIfAbsent (epsRows dependents rank [] dependents)
    (dependents.getD (dependents.length - 1) 0)

/-- `bases_from_dependents`: size-`rank` index subsets containing no
member of `dependents`. -/
def basesFromDependents (dependents : List Nat) (numPoints rank fuel : Nat) : List Nat :=
  (SIter.run (equalIter numPoints rank) fuel).filter
    (fun s => ¬ dependents.any (fun d => RSet.subsetLE d s))

/-- `initial_dependents_support_limit`: for each cardinality from 3 up to
`upper_derived_rank`, the index subsets whose circuit union has nullity
strictly below their own cardinality. -/
def initialDependents (m : RMatroid) (points : List Nat) (upper fuel : Nat) : List Nat :=
  (List.range' 3 (upper + 1 - 3)).foldl
    (fun res subset_size =>
      res ++ (SIter.run (equalIter points.length subset_size) fuel).filter
        (fun subset =>
          let circuit_union :=
            points.enum.foldl
              (fun acc ic =>
                if RSet.contains_element subset ic.1 then acc ||| ic.2 else acc) 0
          popCount subset > m.nullity circuit_union))
    []

/-- `inclusion_minimal`: keep the members that properly contain no other
member (size-3 members are kept outright, as in the source). -/
def inclusionMinimal (subsets : List Nat) : List Nat :=
  subsets.filter (fun s => popCount s == 3 || ¬ subsets.any (fun b => RSet.subsetLT b s))

/-- `struct CombinatorialDerived`. -/
structure CombinatorialDerived where
  rank : Nat
  elements : List Nat
  bases : List Nat
deriving Repr

/-- The fixed-point loop of `from_non_fast_matroid`: epsilon followed by
inclusion minimality until the family's cardinality stops changing. -/
def derivedLoop (rank : Nat) : Nat → List Nat → Nat → List Nat
  | 0, deps, _ => deps
  | fuel + 1, deps, card =>
    let d := inclusionMinimal (epsilon deps rank)
    if d.length = card then d else derivedLoop rank fuel d d.length

/-- The rank-reduction loop of `from_non_fast_matroid`: decrement the
rank until some basis exists (the source panics at rank zero; with the
fuel `rank + 1` the model returns the empty basis list there). -/
def basesRetry (dependents : List Nat) (numPoints fuel : Nat) : Nat → Nat → (Nat × List Nat)
  | r, 0 => (r, [])
  | r, retry + 1 =>
    let b := basesFromDependents dependents numPoints r fuel
    if b.isEmpty ∧ r > 0 then basesRetry dependents numPoints fuel (r - 1) retry
    else (r, b)

/-- `CombinatorialDerived::from_fast_matroid`. -/
def fromFastMatroid (m : RMatroid) (fuel : Nat) : CombinatorialDerived :=
  let rank := m.n - m.k
  let elements := m.circuitsList fuel
  let bases :=
    (SIter.run (equalIter elements.length rank) fuel).filter
      (fun set =>
        (SIter.run (geIter (popCount set) 3) fuel).all
          (fun subset =>
            let extended := RSet.extend subset set
            m.nullity (RSet.union_of_sets extended elements) ≥ popCount extended))
  ⟨rank, elements, bases⟩

/-- `CombinatorialDerived::from_non_fast_matroid`. -/
def fromNonFastMatroid (m : RMatroid) (fuel : Nat) : CombinatorialDerived :=
  let rank := m.n - m.k
  let elements := m.circuitsList fuel
  let deps0 := inclusionMinimal (initialDependents m elements rank fuel)
  let deps := derivedLoop rank fuel deps0 deps0.length
  let (r, bases) := basesRetry deps elements.length fuel rank (rank + 1)
  ⟨r, elements, bases⟩

/-- `impl Matroid for CombinatorialDerived`: rank is the subset's own size
below size 3, otherwise the basis-table formula. -/
def derivedMatroid (d : CombinatorialDerived) : RMatroid :=
  ⟨d.elements.length, d.rank,
    fun x => if popCount x < 3 then popCount x else rankGivenBases x d.bases 0⟩

/-- The dispatcher `CombinatorialDerived::from_matroid`: uniform matroids
(the `is_uniform` value supplied by the concrete variant; `UniformMatroid`
overrides it to `true`) and matroids on at most 3 points take the fast
path, every other matroid the iterative general path. -/
def from_matroid (m : RMatroid) (isUniform : Bool) (fuel : Nat) : CombinatorialDerived :=
  if isUniform || m.n ≤ 3 then fromFastMatroid m fuel else fromNonFastMatroid m fuel

/-! ## Arithmetic toolkit: `popCount` and the bit operations -/

theorem popCountF_congr : ∀ f g x : Nat, x ≤ f → x ≤ g → popCountF f x = popCountF g x := by
  intro f
  induction f using Nat.strong_induction_on with
  | _ f ih =>
    intro g x hf hg
    match f, g with
    | 0, g => interval_cases x; cases g <;> simp [popCountF]
    | f + 1, 0 => interval_cases x; simp [popCountF]
    | f + 1, g + 1 =>
      simp only [popCountF]
      by_cases hx : x = 0
      · simp [hx]
      · have hxpos : 0 < x := Nat.pos_of_ne_zero hx
        have hdiv : x / 2 < x := Nat.div_lt_self hxpos (by norm_num)
        rw [if_neg hx, if_neg hx,
          ih f (Nat.lt_succ_self f) g (x / 2) (by omega) (by omega)]

theorem popCount_zero : popCount 0 = 0 := rfl

/-- The fundamental recursion of the population count. -/
theorem popCount_def (x : Nat) : popCount x = x % 2 + popCount (x / 2) := by
  unfold popCount
  by_cases hx : x = 0
  · simp [hx, popCountF]
  · have hxpos : 0 < x := Nat.pos_of_ne_zero hx
    obtain ⟨f, hf⟩ : ∃ f, x = f + 1 := ⟨x - 1, by omega⟩
    subst hf
    simp only [popCountF, if_neg hx]
    congr 1
    exact popCountF_congr f _ _ (by omega) le_rfl

theorem popCount_two_mul_add (q b : Nat) (hb : b < 2) :
    popCount (2 * q + b) = popCount q + b := by
  rw [popCount_def]
  have h1 : (2 * q + b) % 2 = b := by omega
  have h2 : (2 * q + b) / 2 = q := by omega
  rw [h1, h2]; omega

theorem popCount_one : popCount 1 = 1 := rfl

/-- Below the word width the masked right shift is the plain one. -/
theorem rshr_small (a b : Nat) (hb : b < 64) : rshr a b = a >>> b := by
  unfold rshr
  rw [Nat.mod_eq_of_lt hb]

/-- `popCount` splits across a high/low decomposition at bit `m`. -/
theorem popCount_split (m : Nat) : ∀ b a : Nat, a < 2 ^ m →
    popCount (2 ^ m * b + a) = popCount b + popCount a := by
  induction m with
  | zero =>
    intro b a ha
    interval_cases a
    simp [popCount_zero]
  | succ m ih =>
    intro b a ha
    rw [popCount_def (2 ^ (m + 1) * b + a), popCount_def a]
    have hsucc : 2 ^ (m + 1) * b = 2 * (2 ^ m * b) := by ring
    have h1 : (2 ^ (m + 1) * b + a) % 2 = a % 2 := by
      rw [hsucc]; omega
    have h2 : (2 ^ (m + 1) * b + a) / 2 = 2 ^ m * b + a / 2 := by
      rw [hsucc]; omega
    rw [h1, h2, ih b (a / 2) (by omega)]
    omega

theorem popCount_two_pow_mul (m b : Nat) : popCount (2 ^ m * b) = popCount b := by
  have := popCount_split m b 0 (Nat.pos_pow_of_pos m (by norm_num))
  simpa [popCount_zero] using this

theorem popCount_two_pow (m : Nat) : popCount (2 ^ m) = 1 := by
  simpa [popCount_one] using popCount_two_pow_mul m 1

theorem popCount_two_pow_sub_one (m : Nat) : popCount (2 ^ m - 1) = m := by
  induction m with
  | zero => simp [popCount_zero]
  | succ m ih =>
    have h : 2 ^ (m + 1) - 1 = 2 * (2 ^ m - 1) + 1 := by
      have : 1 ≤ 2 ^ m := Nat.one_le_two_pow
      omega
    rw [h, popCount_two_mul_add _ 1 (by norm_num), ih]

theorem popCount_le_of_lt_two_pow (m : Nat) : ∀ x : Nat, x < 2 ^ m → popCount x ≤ m := by
  induction m with
  | zero => intro x hx; interval_cases x; simp [popCount_zero]
  | succ m ih =>
    intro x hx
    rw [popCount_def]
    have : x / 2 < 2 ^ m := by omega
    have := ih (x / 2) this
    omega

theorem popCount_lt_of_lt (m : Nat) : ∀ x : Nat, x < 2 ^ m - 1 → popCount x < m := by
  induction m with
  | zero => intro x hx; omega
  | succ m ih =>
    intro x hx
    rw [popCount_def]
    rcases Nat.even_or_odd x with he | ho
    · have hx2 : x % 2 = 0 := Nat.even_iff.mp he
      rcases Nat.lt_or_ge (x / 2) (2 ^ m - 1) with h | h
      · have := ih (x / 2) h; omega
      · have hle : x / 2 ≤ 2 ^ m - 1 := by omega
        have : popCount (x / 2) ≤ m :=
          popCount_le_of_lt_two_pow m (x / 2) (by omega)
        omega
    · have hx2 : x % 2 = 1 := Nat.odd_iff.mp ho
      have hdiv : x / 2 < 2 ^ m - 1 := by omega
      have := ih (x / 2) hdiv
      omega

theorem popCount_pos (x : Nat) (hx : x ≠ 0) : 0 < popCount x := by
  induction x using Nat.strong_induction_on with
  | _ x ih =>
    rw [popCount_def]
    rcases Nat.eq_zero_or_pos (x / 2) with h | h
    · have : x % 2 = 1 := by omega
      omega
    · have := ih (x / 2) (Nat.div_lt_self (Nat.pos_of_ne_zero hx) (by norm_num)) (by omega)
      omega

theorem popCount_eq_zero (x : Nat) : popCount x = 0 ↔ x = 0 := by
  constructor
  · intro h
    by_contra hx
    have := popCount_pos x hx
    omega
  · rintro rfl; rfl

/-- The least number of a given population count is the bottom block of ones. -/
theorem le_of_popCount_eq (c x : Nat) (h : popCount x = c) : 2 ^ c - 1 ≤ x := by
  by_contra hlt
  push_neg at hlt
  exact absurd h (by have := popCount_lt_of_lt c x hlt; omega)

theorem land_mod_two_iff (x y : Nat) : (x &&& y) % 2 = 1 ↔ x % 2 = 1 ∧ y % 2 = 1 := by
  have h := Nat.testBit_land x y 0
  simp only [Nat.testBit_zero, ← Bool.decide_and] at h
  exact decide_eq_decide.mp h

theorem lor_mod_two_iff (x y : Nat) : (x ||| y) % 2 = 1 ↔ x % 2 = 1 ∨ y % 2 = 1 := by
  have h := Nat.testBit_lor x y 0
  simp only [Nat.testBit_zero, ← Bool.decide_or] at h
  exact decide_eq_decide.mp h

theorem land_div_two (x y : Nat) : (x &&& y) / 2 = x / 2 &&& y / 2 := by
  apply Nat.eq_of_testBit_eq
  intro i
  rw [Nat.testBit_div_two, Nat.testBit_land, Nat.testBit_land,
    Nat.testBit_div_two, Nat.testBit_div_two]

theorem lor_div_two (x y : Nat) : (x ||| y) / 2 = x / 2 ||| y / 2 := by
  apply Nat.eq_of_testBit_eq
  intro i
  rw [Nat.testBit_div_two, Nat.testBit_lor, Nat.testBit_lor,
    Nat.testBit_div_two, Nat.testBit_div_two]

/-- Population counts add across union and intersection. -/
theorem popCount_lor_add_land (x : Nat) : ∀ y : Nat,
    popCount (x ||| y) + popCount (x &&& y) = popCount x + popCount y := by
  induction x using Nat.strong_induction_on with
  | _ x ih =>
    intro y
    by_cases hx : x = 0
    · simp [hx, popCount_zero]
    · have hih := ih (x / 2) (Nat.div_lt_self (Nat.pos_of_ne_zero hx) (by norm_num)) (y / 2)
      have h1 := land_mod_two_iff x y
      have h2 := lor_mod_two_iff x y
      rw [popCount_def (x ||| y), popCount_def (x &&& y), popCount_def x, popCount_def y,
        land_div_two, lor_div_two]
      omega

theorem popCount_land_le_left (x : Nat) : ∀ y : Nat, popCount (x &&& y) ≤ popCount x := by
  induction x using Nat.strong_induction_on with
  | _ x ih =>
    intro y
    by_cases hx : x = 0
    · simp [hx, popCount_zero]
    · have hih := ih (x / 2) (Nat.div_lt_self (Nat.pos_of_ne_zero hx) (by norm_num)) (y / 2)
      have h1 := land_mod_two_iff x y
      rw [popCount_def (x &&& y), popCount_def x, land_div_two]
      omega

theorem popCount_land_le_right (x y : Nat) : popCount (x &&& y) ≤ popCount y := by
  rw [Nat.land_comm]; exact popCount_land_le_left y x

/-- A subset (in the bit-pattern order of `src/set.rs`) has a smaller
population count. -/
theorem popCount_le_of_subset (x y : Nat) (h : x &&& y = x) : popCount x ≤ popCount y := by
  calc popCount x = popCount (x &&& y) := by rw [h]
    _ ≤ popCount y := popCount_land_le_right x y

theorem testBit_of_subset (x y : Nat) (h : x &&& y = x) (i : Nat) :
    (x.testBit i && y.testBit i) = x.testBit i := by
  rw [← Nat.testBit_land, h]

theorem lor_eq_of_land_eq (x y : Nat) (h : x &&& y = x) : x ||| y = y := by
  apply Nat.eq_of_testBit_eq
  intro i
  have hb := testBit_of_subset x y h i
  rw [Nat.testBit_lor]
  cases hx : x.testBit i <;> cases hy : y.testBit i <;> simp_all

theorem land_xor_self (x y : Nat) (h : x &&& y = x) : x &&& (y ^^^ x) = 0 := by
  apply Nat.eq_of_testBit_eq
  intro i
  have hb := testBit_of_subset x y h i
  rw [Nat.testBit_land, Nat.testBit_xor, Nat.zero_testBit]
  cases hx : x.testBit i <;> cases hy : y.testBit i <;> simp_all

theorem lor_xor_self (x y : Nat) (h : x &&& y = x) : x ||| (y ^^^ x) = y := by
  apply Nat.eq_of_testBit_eq
  intro i
  have hb := testBit_of_subset x y h i
  rw [Nat.testBit_lor, Nat.testBit_xor]
  cases hx : x.testBit i <;> cases hy : y.testBit i <;> simp_all

/-- A proper subset has a strictly smaller population count. -/
theorem popCount_lt_of_ssubset (x y : Nat) (h : x &&& y = x) (hne : x ≠ y) :
    popCount x < popCount y := by
  have hd : y ^^^ x ≠ 0 := by
    intro h0
    have h1 := congrArg (· ^^^ x) h0
    simp only [Nat.xor_assoc, Nat.xor_self, Nat.xor_zero] at h1
    rw [Nat.zero_xor] at h1
    exact hne h1.symm
  have hadd := popCount_lor_add_land x (y ^^^ x)
  rw [lor_xor_self x y h, land_xor_self x y h, popCount_zero] at hadd
  have := popCount_pos (y ^^^ x) hd
  omega

/-- Disjoint bit patterns add under union. -/
theorem lor_eq_add_of_disjoint (x : Nat) : ∀ y : Nat, x &&& y = 0 → x ||| y = x + y := by
  induction x using Nat.strong_induction_on with
  | _ x ih =>
    intro y hxy
    by_cases hx : x = 0
    · simp [hx]
    · have hm : (x &&& y) % 2 = 0 := by rw [hxy]
      have hd : (x &&& y) / 2 = 0 := by rw [hxy]
      rw [land_div_two] at hd
      have h1 := land_mod_two_iff x y
      have hih := ih (x / 2) (Nat.div_lt_self (Nat.pos_of_ne_zero hx) (by norm_num)) (y / 2) hd
      have h2 := lor_mod_two_iff x y
      have hdecomp : x ||| y = 2 * ((x ||| y) / 2) + (x ||| y) % 2 := by omega
      rw [lor_div_two, hih] at hdecomp
      omega

/-- Disjoint bit patterns have additive population counts. -/
theorem popCount_add_of_disjoint (x y : Nat) (h : x &&& y = 0) :
    popCount (x + y) = popCount x + popCount y := by
  rw [← lor_eq_add_of_disjoint x y h]
  have := popCount_lor_add_land x y
  rw [h, popCount_zero] at this
  omega

/-- Bits of a composite number `2^i * H + r` with `r < 2^i`. -/
theorem testBit_composite (i H r : Nat) (hr : r < 2 ^ i) (j : Nat) :
    (2 ^ i * H + r).testBit j = if j < i then r.testBit j else H.testBit (j - i) := by
  rcases Nat.lt_or_ge j i with hj | hj
  · rw [if_pos hj, Nat.testBit_to_div_mod, Nat.testBit_to_div_mod]
    have h2 : (2 ^ i * H + r) / 2 ^ j = 2 ^ (i - j) * H + r / 2 ^ j := by
      have hi : 2 ^ i * H = 2 ^ j * (2 ^ (i - j) * H) := by
        rw [← mul_assoc, ← pow_add]
        congr 2
        omega
      rw [hi, Nat.mul_add_div (Nat.pos_pow_of_pos j (by norm_num))]
    rw [h2]
    have he : 2 ^ (i - j) * H = 2 * (2 ^ (i - j - 1) * H) := by
      rw [← mul_assoc]
      congr 1
      rw [← pow_succ']
      congr 1
      omega
    have hfin : (2 ^ (i - j) * H + r / 2 ^ j) % 2 = r / 2 ^ j % 2 := by
      rw [he]; omega
    rw [hfin]
  · rw [if_neg (by omega), Nat.testBit_to_div_mod, Nat.testBit_to_div_mod]
    have h2 : (2 ^ i * H + r) / 2 ^ j = H / 2 ^ (j - i) := by
      have hi : 2 ^ j = 2 ^ i * 2 ^ (j - i) := by rw [← pow_add]; congr 1; omega
      rw [hi, ← Nat.div_div_eq_div_mul,
        Nat.mul_add_div (Nat.pos_pow_of_pos i (by norm_num)),
        Nat.div_eq_of_lt hr, Nat.add_zero]
    rw [h2]

/-! ## Word-level lemmas: shifts, complement, masks -/

theorem rshl_eq (a b : Nat) (hb : b < 64) (h : a * 2 ^ b < 2 ^ 64) :
    rshl a b = a * 2 ^ b := by
  unfold rshl usizeSize
  rw [Nat.mod_eq_of_lt hb, Nat.shiftLeft_eq, Nat.mod_eq_of_lt h]

theorem rshl_one (i : Nat) (hi : i < 64) : rshl 1 i = 2 ^ i := by
  rw [rshl_eq 1 i hi (by simpa using Nat.pow_lt_pow_right (by norm_num) hi), one_mul]

theorem rshl_one_64 : rshl 1 64 = 1 := by decide

theorem compl64_testBit (m : Nat) (hm : m < 2 ^ 64) (j : Nat) :
    (compl64 m).testBit j = (decide (j < 64) && !m.testBit j) := by
  unfold compl64 usizeSize
  rw [Nat.testBit_xor, Nat.testBit_two_pow_sub_one]
  rcases Nat.lt_or_ge j 64 with hj | hj
  · simp [hj]
  · have hmj : m.testBit j = false :=
      Nat.testBit_lt_two_pow (lt_of_lt_of_le hm (Nat.pow_le_pow_right (by norm_num) hj))
    simp [hmj, Nat.not_lt.mpr hj]

theorem difference_testBit (x m : Nat) (hx : x < 2 ^ 64) (hm : m < 2 ^ 64) (j : Nat) :
    (RSet.difference x m).testBit j = (x.testBit j && !m.testBit j) := by
  unfold RSet.difference
  rw [Nat.testBit_land, compl64_testBit m hm j]
  rcases Nat.lt_or_ge j 64 with hj | hj
  · simp [hj]
  · have hxj : x.testBit j = false :=
      Nat.testBit_lt_two_pow (lt_of_lt_of_le hx (Nat.pow_le_pow_right (by norm_num) hj))
    simp [hxj]

theorem remove_element_testBit (x e : Nat) (hx : x < 2 ^ 64) (he : e < 64) (j : Nat) :
    (RSet.remove_element x e).testBit j = (x.testBit j && !decide (e = j)) := by
  unfold RSet.remove_element
  rw [rshl_one e he]
  have h2e : (2 : Nat) ^ e < 2 ^ 64 := Nat.pow_lt_pow_right (by norm_num) he
  rw [show x &&& compl64 (2 ^ e) = RSet.difference x (2 ^ e) from rfl,
    difference_testBit x (2 ^ e) hx h2e j, Nat.testBit_two_pow]

theorem remove_element_eq_self (x e : Nat) (hx : x < 2 ^ 64) (he : e < 64)
    (h : x.testBit e = false) : RSet.remove_element x e = x := by
  apply Nat.eq_of_testBit_eq
  intro j
  rw [remove_element_testBit x e hx he j]
  by_cases hej : e = j
  · subst hej; simp [h]
  · simp [hej]

theorem remove_element_subset (x e : Nat) (hx : x < 2 ^ 64) (he : e < 64) :
    RSet.remove_element x e &&& x = RSet.remove_element x e := by
  apply Nat.eq_of_testBit_eq
  intro j
  rw [Nat.testBit_land, remove_element_testBit x e hx he j]
  cases hxj : x.testBit j <;> simp [hxj]

theorem remove_element_lor (x e : Nat) (hx : x < 2 ^ 64) (he : e < 64)
    (h : x.testBit e = true) :
    RSet.remove_element x e ||| 2 ^ e = x ∧ RSet.remove_element x e &&& 2 ^ e = 0 := by
  constructor
  · apply Nat.eq_of_testBit_eq
    intro j
    rw [Nat.testBit_lor, remove_element_testBit x e hx he j, Nat.testBit_two_pow]
    by_cases hej : e = j
    · subst hej; simp [h]
    · simp [hej]
  · apply Nat.eq_of_testBit_eq
    intro j
    rw [Nat.testBit_land, remove_element_testBit x e hx he j, Nat.testBit_two_pow,
      Nat.zero_testBit]
    by_cases hej : e = j
    · subst hej; simp
    · simp [hej]

theorem popCount_remove_element (x e : Nat) (hx : x < 2 ^ 64) (he : e < 64)
    (h : x.testBit e = true) :
    popCount (RSet.remove_element x e) + 1 = popCount x := by
  obtain ⟨hor, hand⟩ := remove_element_lor x e hx he h
  have := popCount_lor_add_land (RSet.remove_element x e) (2 ^ e)
  rw [hor, hand, popCount_zero, popCount_two_pow] at this
  omega

theorem subset_iff_testBit (x y : Nat) :
    x &&& y = x ↔ ∀ j, x.testBit j = true → y.testBit j = true := by
  constructor
  · intro h j hj
    have := testBit_of_subset x y h j
    rw [hj] at this
    simpa using this
  · intro h
    apply Nat.eq_of_testBit_eq
    intro j
    rw [Nat.testBit_land]
    cases hxj : x.testBit j
    · simp
    · simp [h j hxj]

theorem le_of_subset (x y : Nat) (h : x &&& y = x) : x ≤ y := by
  calc x = x &&& y := h.symm
    _ ≤ y := Nat.and_le_right

/-! ## The executable base-2 logarithm and the `f32` conversion -/

theorem log2F_congr : ∀ f g x : Nat, x ≤ f → x ≤ g → log2F f x = log2F g x := by
  intro f
  induction f using Nat.strong_induction_on with
  | _ f ih =>
    intro g x hf hg
    match f, g with
    | 0, g => have hx0 : x = 0 := by omega
              cases g <;> simp [hx0, log2F]
    | f + 1, 0 => have hx0 : x = 0 := by omega
                  simp [hx0, log2F]
    | f + 1, g + 1 =>
      simp only [log2F]
      by_cases hx : 2 ≤ x
      · rw [if_pos hx, if_pos hx,
          ih f (Nat.lt_succ_self f) g (x / 2) (by omega) (by omega)]
      · rw [if_neg hx, if_neg hx]

theorem elog2_def (x : Nat) : elog2 x = if 2 ≤ x then elog2 (x / 2) + 1 else 0 := by
  unfold elog2
  by_cases hx : 2 ≤ x
  · obtain ⟨f, hf⟩ : ∃ f, x = f + 1 := ⟨x - 1, by omega⟩
    subst hf
    simp only [log2F, if_pos hx]
    rw [log2F_congr f _ _ (by omega) le_rfl]
  · rw [if_neg hx]
    have hx1 : x ≤ 1 := by omega
    interval_cases x <;> simp [log2F]

/-- The defining bounds of the base-2 logarithm. -/
theorem elog2_spec (x : Nat) (hx : 1 ≤ x) :
    2 ^ elog2 x ≤ x ∧ x < 2 ^ (elog2 x + 1) := by
  induction x using Nat.strong_induction_on with
  | _ x ih =>
    rw [elog2_def]
    by_cases h2 : 2 ≤ x
    · have hdiv := ih (x / 2) (Nat.div_lt_self (by omega) (by norm_num)) (by omega)
      rw [if_pos h2]
      constructor
      · rw [pow_succ]
        omega
      · rw [pow_succ, pow_succ]
        omega
    · rw [if_neg h2]
      omega

theorem elog2_two_pow (k : Nat) : elog2 (2 ^ k) = k := by
  obtain ⟨h1, h2⟩ := elog2_spec (2 ^ k) Nat.one_le_two_pow
  by_contra hne
  rcases Nat.lt_or_ge (elog2 (2 ^ k)) k with h | h
  · have : 2 ^ k < 2 ^ (elog2 (2 ^ k) + 1) := h2
    have : (2 : Nat) ^ (elog2 (2 ^ k) + 1) ≤ 2 ^ k := Nat.pow_le_pow_right (by norm_num) (by omega)
    omega
  · have hk : k < elog2 (2 ^ k) := by omega
    have : (2 : Nat) ^ (k + 1) ≤ 2 ^ elog2 (2 ^ k) := Nat.pow_le_pow_right (by norm_num) (by omega)
    have : (2 : Nat) ^ k < 2 ^ (k + 1) := Nat.pow_lt_pow_right (by norm_num) (by omega)
    omega

theorem elog2_lt_of_lt (x k : Nat) (hx : 1 ≤ x) (h : x < 2 ^ k) : elog2 x < k := by
  obtain ⟨h1, _⟩ := elog2_spec x hx
  by_contra hge
  have : (2 : Nat) ^ k ≤ 2 ^ elog2 x := Nat.pow_le_pow_right (by norm_num) (by omega)
  omega

theorem le_elog2 (x k : Nat) (h : 2 ^ k ≤ x) : k ≤ elog2 x := by
  obtain ⟨_, h2⟩ := elog2_spec x (le_trans Nat.one_le_two_pow h)
  by_contra hlt
  have : (2 : Nat) ^ (elog2 x + 1) ≤ 2 ^ k := Nat.pow_le_pow_right (by norm_num) (by omega)
  omega

/-- The `f32` rounding keeps the value within the same binade (allowing the
upper boundary). -/
theorem f32ofNat_bounds (x : Nat) (hx : 1 ≤ x) :
    2 ^ elog2 x ≤ f32ofNat x ∧ f32ofNat x ≤ 2 ^ (elog2 x + 1) := by
  unfold f32ofNat
  by_cases hsmall : x < 2 ^ 24
  · rw [if_pos hsmall]
    exact ⟨(elog2_spec x hx).1, le_of_lt (elog2_spec x hx).2⟩
  · rw [if_neg hsmall]
    simp only []
    obtain ⟨h1, h2⟩ := elog2_spec x hx
    have he24 : 24 ≤ elog2 x := le_elog2 x 24 (by omega)
    have hgd1 : 2 ^ elog2 x = 2 ^ (elog2 x - 23) * 2 ^ 23 := by
      rw [← pow_add]; congr 1; omega
    have hgd2 : 2 ^ (elog2 x + 1) = 2 ^ (elog2 x - 23) * 2 ^ 24 := by
      rw [← pow_add]; congr 1; omega
    have hgpos : 0 < 2 ^ (elog2 x - 23) := Nat.pos_pow_of_pos _ (by norm_num)
    have hqlow : 2 ^ 23 ≤ x / 2 ^ (elog2 x - 23) := by
      rw [Nat.le_div_iff_mul_le hgpos]
      calc 2 ^ 23 * 2 ^ (elog2 x - 23) = 2 ^ elog2 x := by
            rw [← pow_add]; congr 1; omega
        _ ≤ x := h1
    have hqhigh : (x / 2 ^ (elog2 x - 23) + 1) * 2 ^ (elog2 x - 23) ≤ 2 ^ (elog2 x + 1) := by
      have hq : x / 2 ^ (elog2 x - 23) < 2 ^ 24 := by
        rw [Nat.div_lt_iff_lt_mul hgpos]
        calc x < 2 ^ (elog2 x + 1) := h2
          _ = 2 ^ 24 * 2 ^ (elog2 x - 23) := by rw [← pow_add]; congr 1; omega
      calc (x / 2 ^ (elog2 x - 23) + 1) * 2 ^ (elog2 x - 23)
          ≤ 2 ^ 24 * 2 ^ (elog2 x - 23) := Nat.mul_le_mul_right _ (by omega)
        _ = 2 ^ (elog2 x + 1) := by rw [← pow_add]; congr 1; omega
    have hmul_low : 2 ^ elog2 x ≤ x / 2 ^ (elog2 x - 23) * 2 ^ (elog2 x - 23) := by
      calc 2 ^ elog2 x = 2 ^ 23 * 2 ^ (elog2 x - 23) := by rw [← pow_add]; congr 1; omega
        _ ≤ x / 2 ^ (elog2 x - 23) * 2 ^ (elog2 x - 23) :=
            Nat.mul_le_mul_right _ hqlow
    have hmul_mid : x / 2 ^ (elog2 x - 23) * 2 ^ (elog2 x - 23) ≤ (x / 2 ^ (elog2 x - 23) + 1) * 2 ^ (elog2 x - 23) :=
      Nat.mul_le_mul_right _ (by omega)
    split
    · exact ⟨hmul_low, le_trans hmul_mid hqhigh⟩
    · split
      · exact ⟨le_trans hmul_low hmul_mid, hqhigh⟩
      · split
        · exact ⟨hmul_low, le_trans hmul_mid hqhigh⟩
        · exact ⟨le_trans hmul_low hmul_mid, hqhigh⟩

/-- The modelled `leftmost_element` never undercuts the true top-bit index
and overshoots by at most one. -/
theorem leftmost_element_bounds (x : Nat) (hx : 1 ≤ x) :
    elog2 x ≤ RSet.leftmost_element x ∧ RSet.leftmost_element x ≤ elog2 x + 1 := by
  unfold RSet.leftmost_element
  obtain ⟨h1, h2⟩ := f32ofNat_bounds x hx
  constructor
  · exact le_elog2 _ _ h1
  · have : f32ofNat x < 2 ^ (elog2 x + 2) := by
      calc f32ofNat x ≤ 2 ^ (elog2 x + 1) := h2
        _ < 2 ^ (elog2 x + 2) := Nat.pow_lt_pow_right (by norm_num) (by omega)
    have := elog2_lt_of_lt (f32ofNat x) (elog2 x + 2) (le_trans Nat.one_le_two_pow h1) this
    omega

/-! ## Behaviour of the scan-and-filter branch of the enumerator -/

theorem wadd_small (a b : Nat) (h : a + b < 2 ^ 64) : wadd a b = a + b := by
  unfold wadd usizeSize
  exact Nat.mod_eq_of_lt h

/-- `satisfy_limit` ignores the cursor. -/
theorem satisfy_limit_cur (c c' n : Nat) (sl : Option Nat) (pol : Option RLimitPolicy) (x : Nat) :
    SIter.satisfy_limit ⟨c, n, sl, pol⟩ x = SIter.satisfy_limit ⟨c', n, sl, pol⟩ x := rfl

theorem scanLoop_none (n : Nat) (sl : Option Nat) (pol : Option RLimitPolicy)
    (hn : n ≤ 63) :
    ∀ f cur, cur < 2 ^ n → f ≥ 2 ^ n - cur →
    (∀ j, cur ≤ j → j < 2 ^ n → SIter.satisfy_limit ⟨0, n, sl, pol⟩ j = false) →
    (SIter.scanLoop f ⟨cur, n, sl, pol⟩).1 = none := by
  intro f
  induction f with
  | zero => intro cur hcur hf _; omega
  | succ f ih =>
    intro cur hcur hf hall
    have h2n : (2 : Nat) ^ n < 2 ^ 64 := Nat.pow_lt_pow_right (by norm_num) (by omega)
    simp only [SIter.scanLoop]
    rw [satisfy_limit_cur cur 0, hall cur le_rfl hcur]
    simp only [Bool.false_eq_true, if_false]
    rw [wadd_small cur 1 (by omega), rshl_one n (by omega)]
    by_cases hend : cur + 1 ≥ 2 ^ n
    · rw [if_pos hend]
    · rw [if_neg hend]
      exact ih (cur + 1) (by omega) (by omega) (fun j h1 h2 => hall j (by omega) h2)

theorem scanLoop_some (n : Nat) (sl : Option Nat) (pol : Option RLimitPolicy)
    (hn : n ≤ 63) (m : Nat) (hmn : m < 2 ^ n)
    (hm : SIter.satisfy_limit ⟨0, n, sl, pol⟩ m = true) :
    ∀ f cur, cur ≤ m → f ≥ m - cur + 1 →
    (∀ j, cur ≤ j → j < m → SIter.satisfy_limit ⟨0, n, sl, pol⟩ j = false) →
    SIter.scanLoop f ⟨cur, n, sl, pol⟩ = (some m, ⟨m + 1, n, sl, pol⟩) := by
  intro f
  induction f with
  | zero => intro cur hcm hf _; omega
  | succ f ih =>
    intro cur hcm hf hleast
    have h2n : (2 : Nat) ^ n < 2 ^ 64 := Nat.pow_lt_pow_right (by norm_num) (by omega)
    simp only [SIter.scanLoop]
    by_cases hcur : cur = m
    · subst hcur
      rw [satisfy_limit_cur cur 0, hm]
      simp only [if_true]
      rw [wadd_small cur 1 (by omega)]
    · have hlt : cur < m := by omega
      rw [satisfy_limit_cur cur 0, hleast cur le_rfl hlt]
      simp only [Bool.false_eq_true, if_false]
      rw [wadd_small cur 1 (by omega), rshl_one n (by omega)]
      rw [if_neg (by omega)]
      exact ih (cur + 1) (by omega) (by omega) (fun j h1 h2 => hleast j (by omega) h2)

theorem filter_range'_eq_nil (sat : Nat → Bool) (cur len : Nat)
    (h : ∀ j, cur ≤ j → j < cur + len → sat j = false) :
    (List.range' cur len).filter sat = [] := by
  rw [List.filter_eq_nil_iff]
  intro a ha
  rw [List.mem_range'_1] at ha
  simp [h a ha.1 ha.2]

theorem filter_range'_eq_cons (sat : Nat → Bool) (cur len m : Nat)
    (hcm : cur ≤ m) (hm : m < cur + len)
    (hfail : ∀ j, cur ≤ j → j < m → sat j = false) (hsat : sat m = true) :
    (List.range' cur len).filter sat = m :: (List.range' (m + 1) (cur + len - m - 1)).filter sat := by
  have hsplit : List.range' cur (m - cur) ++ List.range' (cur + 1 * (m - cur)) (len - (m - cur)) =
      List.range' cur (len - (m - cur) + (m - cur)) := List.range'_append cur (m - cur) (len - (m - cur)) 1
  have h1 : cur + 1 * (m - cur) = m := by omega
  have h2 : len - (m - cur) + (m - cur) = len := by omega
  rw [h1, h2] at hsplit
  rw [← hsplit, List.filter_append,
    filter_range'_eq_nil sat cur (m - cur) (fun j hj1 hj2 => hfail j hj1 (by omega))]
  have h3 : len - (m - cur) = (cur + len - m - 1) + 1 := by omega
  rw [h3, List.range'_succ, List.filter_cons, if_pos hsat]
  simp

/-- The list produced from any scan-branch state (policy other than
`Equal`): the satisfying values in `[cur, 2^n)`, in ascending order. -/
theorem run_scan (n : Nat) (sl : Option Nat) (pol : Option RLimitPolicy)
    (hn : n ≤ 63) (hpol : pol ≠ some RLimitPolicy.eq) :
    ∀ fuel cur, cur ≤ 2 ^ n → fuel ≥ 2 ^ n + 1 - cur →
    SIter.run ⟨cur, n, sl, pol⟩ fuel =
      (List.range' cur (2 ^ n - cur)).filter (fun y => SIter.satisfy_limit ⟨0, n, sl, pol⟩ y) := by
  intro fuel
  induction fuel using Nat.strong_induction_on with
  | _ fuel ih =>
    intro cur hcur hfuel
    have h2n : (2 : Nat) ^ n < 2 ^ 64 := Nat.pow_lt_pow_right (by norm_num) (by omega)
    obtain ⟨f, rfl⟩ : ∃ f, fuel = f + 1 := ⟨fuel - 1, by omega⟩
    rw [SIter.run]
    by_cases hend : cur = 2 ^ n
    · rw [SIter.next, if_pos (by rw [rshl_one n (by omega)]; simp [hend])]
      subst hend
      simp
    · have hcur' : cur < 2 ^ n := by omega
      rw [SIter.next, if_neg (by rw [rshl_one n (by omega)]; simp; omega)]
      have hsn : SIter.setNext (f + 1) ⟨cur, n, sl, pol⟩ = SIter.scanLoop (f + 1) ⟨cur, n, sl, pol⟩ := by
        rcases pol with _ | p
        · rfl
        · cases p
          · rfl
          · rfl
          · exact absurd rfl hpol
          · rfl
          · rfl
      rw [hsn]
      by_cases hex : ∃ m, m < 2 ^ n ∧ cur ≤ m ∧ SIter.satisfy_limit ⟨0, n, sl, pol⟩ m = true
      · have hexm : ∃ m, m < 2 ^ n ∧ cur ≤ m ∧ SIter.satisfy_limit ⟨0, n, sl, pol⟩ m = true := hex
        classical
        let m := Nat.find hexm
        obtain ⟨hm1, hm2, hm3⟩ := Nat.find_spec hexm
        have hleast : ∀ j, cur ≤ j → j < m → SIter.satisfy_limit ⟨0, n, sl, pol⟩ j = false := by
          intro j hj1 hj2
          by_contra hc
          have : j < 2 ^ n := by omega
          exact absurd ⟨this, hj1, by simpa using hc⟩ (Nat.find_min hexm hj2)
        rw [scanLoop_some n sl pol hn m hm1 hm3 (f + 1) cur hm2 (by omega) hleast]
        rw [filter_range'_eq_cons _ cur (2 ^ n - cur) m hm2 (by omega) hleast hm3]
        have harith : cur + (2 ^ n - cur) - m - 1 = 2 ^ n - (m + 1) := by omega
        rw [harith]
        show m :: SIter.run ⟨m + 1, n, sl, pol⟩ f = _
        rw [ih f (by omega) (m + 1) (by omega) (by omega)]
      · push_neg at hex
        have hnone := scanLoop_none n sl pol hn (f + 1) cur hcur' (by omega)
          (fun j h1 h2 => by
            have := hex j h2 h1
            simpa using this)
        rcases hsc : SIter.scanLoop (f + 1) ⟨cur, n, sl, pol⟩ with ⟨r, st⟩
        rw [hsc] at hnone
        simp only at hnone
        subst hnone
        rw [filter_range'_eq_nil _ cur (2 ^ n - cur)
          (fun j h1 h2 => by
            have := hex j (by omega) h1
            simpa using this)]

/-! ## The `Equal`-policy successor: structure of the `01` boundary -/

theorem land_two_pow_sub_one (a k : Nat) : a &&& (2 ^ k - 1) = a % 2 ^ k := by
  apply Nat.eq_of_testBit_eq
  intro j
  rw [Nat.testBit_land, Nat.testBit_two_pow_sub_one, Nat.testBit_mod_two_pow,
    Bool.and_comm]

theorem clear_low_bits (a k : Nat) (ha : a < 2 ^ 64) (hk : k < 64) :
    a &&& compl64 (2 ^ k - 1) = 2 ^ k * (a / 2 ^ k) := by
  apply Nat.eq_of_testBit_eq
  intro j
  have hmask : (2 : Nat) ^ k - 1 < 2 ^ 64 := by
    have : (2 : Nat) ^ k ≤ 2 ^ 64 := Nat.pow_le_pow_right (by norm_num) (by omega)
    omega
  rw [show a &&& compl64 (2 ^ k - 1) = RSet.difference a (2 ^ k - 1) from rfl,
    difference_testBit a (2 ^ k - 1) ha hmask j, Nat.testBit_two_pow_sub_one]
  conv_rhs => rw [← Nat.add_zero (2 ^ k * (a / 2 ^ k))]
  rw [testBit_composite k (a / 2 ^ k) 0 (Nat.pos_pow_of_pos _ (by norm_num)) j]
  rcases Nat.lt_or_ge j k with hj | hj
  · simp [hj, Nat.zero_testBit]
  · have hjk : ¬ j < k := by omega
    rw [decide_eq_false hjk]
    simp only [Bool.not_false, Bool.and_true, if_neg hjk]
    rw [← Nat.shiftRight_eq_div_pow, Nat.testBit_shiftRight,
      show k + (j - k) = j by omega]

/-- The boundary condition scanned by `set_next`: `(x >> i) & 3 == 1`. -/
theorem boundary_iff (x i : Nat) :
    (x >>> i) &&& 3 = 1 ↔ x.testBit i = true ∧ x.testBit (i + 1) = false := by
  have h3 : (x >>> i) &&& 3 = (x / 2 ^ i) % 4 := by
    rw [Nat.shiftRight_eq_div_pow]
    have : (3 : Nat) = 2 ^ 2 - 1 := by norm_num
    rw [this, land_two_pow_sub_one]
    norm_num
  rw [h3, Nat.testBit_to_div_mod, Nat.testBit_to_div_mod]
  have hd : x / 2 ^ (i + 1) = x / 2 ^ i / 2 := by
    rw [Nat.div_div_eq_div_mul, pow_succ]
  rw [hd]
  constructor
  · intro h
    constructor
    · simp; omega
    · simp; omega
  · intro ⟨h1, h2⟩
    simp at h1 h2
    omega

theorem testBit_elog2 (x : Nat) (hx : 1 ≤ x) : x.testBit (elog2 x) = true := by
  obtain ⟨h1, h2⟩ := elog2_spec x hx
  rw [Nat.testBit_to_div_mod]
  have hlow : x / 2 ^ elog2 x = 1 := by
    have hpos : 0 < (2 : Nat) ^ elog2 x := Nat.pos_pow_of_pos _ (by norm_num)
    have ha : 1 ≤ x / 2 ^ elog2 x := (Nat.le_div_iff_mul_le hpos).mpr (by omega)
    have hb : x / 2 ^ elog2 x < 2 := by
      rw [Nat.div_lt_iff_lt_mul hpos]
      calc x < 2 ^ (elog2 x + 1) := h2
        _ = 2 * 2 ^ elog2 x := by rw [pow_succ]; ring
    omega
  simp [hlow]

theorem testBit_false_of_elog2_lt (x j : Nat) (hx : 1 ≤ x) (h : elog2 x < j) :
    x.testBit j = false := by
  obtain ⟨_, h2⟩ := elog2_spec x hx
  exact Nat.testBit_lt_two_pow
    (lt_of_lt_of_le h2 (Nat.pow_le_pow_right (by norm_num) (by omega)))

theorem find01F_eq (x : Nat) (m : Nat)
    (hm : (x >>> m) &&& 3 = 1) :
    ∀ fuel i0, i0 ≤ m → fuel ≥ m - i0 + 1 →
    (∀ j, i0 ≤ j → j < m → (x >>> j) &&& 3 ≠ 1) →
    SIter.find01F fuel x i0 = m := by
  intro fuel
  induction fuel with
  | zero => intro i0 h1 h2; omega
  | succ fuel ih =>
    intro i0 h1 h2 hleast
    rw [SIter.find01F]
    by_cases h0 : i0 = m
    · subst h0
      simp [hm]
    · have : (x >>> i0) &&& 3 ≠ 1 := hleast i0 le_rfl (by omega)
      simp only [beq_iff_eq, this, if_false]
      exact ih (i0 + 1) (by omega) (by omega) (fun j hj1 hj2 => hleast j (by omega) hj2)

/-- Characterization of `find01`: for `0 < x < 2^63`, it returns the least
`01` boundary, which sits no higher than the top bit. -/
theorem find01_spec (x : Nat) (hx : 1 ≤ x) (hx63 : x < 2 ^ 63) :
    x.testBit (SIter.find01 x) = true ∧ x.testBit (SIter.find01 x + 1) = false ∧
    (∀ j, j < SIter.find01 x → (x.testBit j = true → x.testBit (j + 1) = true)) ∧
    SIter.find01 x ≤ elog2 x := by
  classical
  have htop : (x >>> elog2 x) &&& 3 = 1 := by
    rw [boundary_iff]
    refine ⟨testBit_elog2 x hx, testBit_false_of_elog2_lt x _ hx (by omega)⟩
  have hex : ∃ j, (x >>> j) &&& 3 = 1 := ⟨elog2 x, htop⟩
  have helog : elog2 x ≤ 62 := by
    have := elog2_lt_of_lt x 63 hx hx63
    omega
  have hfind := Nat.find_spec hex
  have hle : Nat.find hex ≤ elog2 x := Nat.find_le htop
  have heq : SIter.find01 x = Nat.find hex := by
    unfold SIter.find01
    exact find01F_eq x (Nat.find hex) hfind 64 0 (by omega) (by omega)
      (fun j hj1 hj2 => Nat.find_min hex hj2)
  rw [heq]
  obtain ⟨hb1, hb2⟩ := (boundary_iff x (Nat.find hex)).mp hfind
  refine ⟨hb1, hb2, ?_, hle⟩
  intro j hj hbit
  by_contra hnext
  have : (x >>> j) &&& 3 = 1 := by
    rw [boundary_iff]
    exact ⟨hbit, by simpa using hnext⟩
  exact absurd this (Nat.find_min hex hj)

theorem testBit_div_pow (x k m : Nat) : (x / 2 ^ k).testBit m = x.testBit (k + m) := by
  rw [← Nat.shiftRight_eq_div_pow, Nat.testBit_shiftRight]

/-- Structure theorem for the `Equal`-policy successor: writing
`x = 2^(i+2)·H + (2^(i+1) - 2^t)` with `i` the `01` boundary and `t` the
lowest set bit, the computed successor moves the boundary bit up and packs
the `i - t` remaining low ones at the bottom. -/
theorem gosper_main (x : Nat) (hx : 1 ≤ x) (hx63 : x < 2 ^ 63) :
    ∃ i t H, t ≤ i ∧ i ≤ 62 ∧
      x = 2 ^ (i + 2) * H + (2 ^ (i + 1) - 2 ^ t) ∧
      SIter.gosperStep x = 2 ^ (i + 2) * H + 2 ^ (i + 1) + (2 ^ (i - t) - 1) := by
  classical
  obtain ⟨hb1, hb2, hstep, hle⟩ := find01_spec x hx hx63
  have hexbit : ∃ j, x.testBit j = true := ⟨elog2 x, testBit_elog2 x hx⟩
  set i := SIter.find01 x with hidef
  set t := Nat.find hexbit with htdef
  set H := x / 2 ^ (i + 2) with hHdef
  have hti : t ≤ i := Nat.find_le hb1
  have hi62 : i ≤ 62 := by
    have h63 : elog2 x ≤ 62 := by have := elog2_lt_of_lt x 63 hx hx63; omega
    omega
  have ht1 : x.testBit t = true := Nat.find_spec hexbit
  have htmin : ∀ j, j < t → x.testBit j = false := by
    intro j hj
    have := Nat.find_min hexbit hj
    simpa using this
  have hclassA : ∀ j, t ≤ j → j ≤ i → x.testBit j = true := by
    intro j h1 h2
    have hclimb : ∀ d, t + d ≤ i → x.testBit (t + d) = true := by
      intro d
      induction d with
      | zero => intro _; simpa using ht1
      | succ d ih =>
        intro hd
        have hprev := ih (by omega)
        have := hstep (t + d) (by omega) hprev
        rwa [show t + d + 1 = t + (d + 1) by omega] at this
    have := hclimb (j - t) (by omega)
    rwa [show t + (j - t) = j by omega] at this
  have honet : (1 : Nat) ≤ 2 ^ t := Nat.one_le_two_pow
  have hpowti : (2 : Nat) ^ t ≤ 2 ^ i := Nat.pow_le_pow_right (by norm_num) hti
  have hpow1 : (2 : Nat) ^ (i + 1) = 2 * 2 ^ i := by rw [pow_succ]; ring
  have hpow2 : (2 : Nat) ^ (i + 2) = 4 * 2 ^ i := by
    rw [pow_add]; ring
  have hid1 : 2 ^ t * (2 ^ (i + 1 - t) - 1) = 2 ^ (i + 1) - 2 ^ t := by
    have h1 : (2 : Nat) ^ t * ((2 ^ (i + 1 - t) - 1) + 1) = 2 ^ (i + 1) := by
      rw [Nat.sub_add_cancel Nat.one_le_two_pow, ← pow_add]
      congr 1
      omega
    have h2 : (2 : Nat) ^ t * ((2 ^ (i + 1 - t) - 1) + 1) =
        2 ^ t * (2 ^ (i + 1 - t) - 1) + 2 ^ t := by ring
    omega
  have hid2 : 2 ^ t * (2 ^ (i - t) - 1) = 2 ^ i - 2 ^ t := by
    have h1 : (2 : Nat) ^ t * ((2 ^ (i - t) - 1) + 1) = 2 ^ i := by
      rw [Nat.sub_add_cancel Nat.one_le_two_pow, ← pow_add]
      congr 1
      omega
    have h2 : (2 : Nat) ^ t * ((2 ^ (i - t) - 1) + 1) =
        2 ^ t * (2 ^ (i - t) - 1) + 2 ^ t := by ring
    omega
  have hmod : x % 2 ^ (i + 2) = 2 ^ (i + 1) - 2 ^ t := by
    rw [← hid1]
    apply Nat.eq_of_testBit_eq
    intro j
    rw [Nat.testBit_mod_two_pow]
    conv_rhs => rw [← Nat.add_zero (2 ^ t * (2 ^ (i + 1 - t) - 1))]
    rw [testBit_composite t _ 0 (Nat.pos_pow_of_pos _ (by norm_num)) j]
    rcases Nat.lt_or_ge j t with hj | hj
    · have hxj := htmin j hj
      simp [hj, hxj, Nat.zero_testBit, show j < i + 2 by omega]
    · rw [if_neg (by omega), Nat.testBit_two_pow_sub_one]
      rcases Nat.lt_or_ge j (i + 1) with hj2 | hj2
      · have hxj := hclassA j hj (by omega)
        simp [hxj, show j < i + 2 by omega, show j - t < i + 1 - t by omega]
      · have hd : ¬ (j - t < i + 1 - t) := by omega
        rw [decide_eq_false hd]
        rcases Nat.lt_or_ge j (i + 2) with hj3 | hj3
        · have hji : j = i + 1 := by omega
          subst hji
          simp [hb2]
        · simp [show ¬ j < i + 2 by omega]
  have hdecomp : x = 2 ^ (i + 2) * H + (2 ^ (i + 1) - 2 ^ t) := by
    conv_lhs => rw [← Nat.div_add_mod x (2 ^ (i + 2))]
    rw [hmod]
  refine ⟨i, t, H, hti, hi62, hdecomp, ?_⟩
  -- now compute the successor
  have hx64 : x < 2 ^ 64 := by
    calc x < 2 ^ 63 := hx63
      _ < 2 ^ 64 := by norm_num
  have h3shift : rshl 3 i = 3 * 2 ^ i := by
    rw [rshl_eq 3 i (by omega)]
    calc 3 * 2 ^ i ≤ 3 * 2 ^ 62 := by
          have : (2 : Nat) ^ i ≤ 2 ^ 62 := Nat.pow_le_pow_right (by norm_num) hi62
          omega
      _ < 2 ^ 64 := by norm_num
  have h3bits : ∀ j, (3 * 2 ^ i).testBit j = decide (j = i ∨ j = i + 1) := by
    intro j
    rw [mul_comm]
    conv_lhs => rw [← Nat.add_zero (2 ^ i * 3)]
    rw [testBit_composite i 3 0 (Nat.pos_pow_of_pos _ (by norm_num)) j]
    rcases Nat.lt_or_ge j i with hj | hj
    · simp [hj, Nat.zero_testBit]
      omega
    · rw [if_neg (by omega), show (3 : Nat) = 2 ^ 2 - 1 by norm_num,
        Nat.testBit_two_pow_sub_one]
      have : (j - i < 2) ↔ (j = i ∨ j = i + 1) := by omega
      simp [this]
  -- the value after the xor
  have hlow1lt : 2 ^ i - 2 ^ t < 2 ^ (i + 1) := by omega
  have hL1lt : 2 ^ (i + 1) + (2 ^ i - 2 ^ t) < 2 ^ (i + 2) := by omega
  have hx1bits : x ^^^ 3 * 2 ^ i =
      2 ^ (i + 2) * H + (2 ^ (i + 1) * 1 + (2 ^ i - 2 ^ t)) := by
    apply Nat.eq_of_testBit_eq
    intro j
    rw [Nat.testBit_xor, h3bits j,
      testBit_composite (i + 2) H _ (by omega) j]
    rcases Nat.lt_or_ge j (i + 2) with hj4 | hj4
    · rw [if_pos hj4, testBit_composite (i + 1) 1 _ hlow1lt j]
      rcases Nat.lt_or_ge j (i + 1) with hj5 | hj5
      · rw [if_pos hj5, ← hid2]
        conv_rhs => rw [← Nat.add_zero (2 ^ t * (2 ^ (i - t) - 1))]
        rw [testBit_composite t _ 0 (Nat.pos_pow_of_pos _ (by norm_num)) j,
          Nat.testBit_two_pow_sub_one]
        rcases Nat.lt_or_ge j t with hj6 | hj6
        · have hxj := htmin j hj6
          simp [hxj, hj6]
          omega
        · rw [if_neg (by omega)]
          rcases Nat.lt_or_ge j i with hj7 | hj7
          · have hxj := hclassA j hj6 (by omega)
            simp [hxj, show j - t < i - t by omega]
            omega
          · have hji : j = i := by omega
            subst hji
            have hxj := hclassA i hj6 le_rfl
            simp [hxj, show ¬ (i - t < i - t) by omega]
      · have hji : j = i + 1 := by omega
        subst hji
        rw [if_neg (by omega), Nat.sub_self]
        simp [hb2]
    · rw [if_neg (by omega)]
      have h3j : ¬ (j = i ∨ j = i + 1) := by omega
      rw [decide_eq_false h3j]
      rw [hHdef, testBit_div_pow, show i + 2 + (j - (i + 2)) = j by omega]
      simp
  -- assemble gosperStep
  have hgs : SIter.gosperStep x =
      ((x ^^^ rshl 3 i) &&& compl64 (rshl 1 i - 1)) |||
        (rshl 1 (popCount ((x ^^^ rshl 3 i) &&& (rshl 1 i - 1))) - 1) := rfl
  rw [hgs, h3shift, rshl_one i (by omega), hx1bits]
  have hrw1 : 2 ^ (i + 2) * H + (2 ^ (i + 1) * 1 + (2 ^ i - 2 ^ t)) =
      2 ^ i * (4 * H + 2) + (2 ^ i - 2 ^ t) := by
    rw [hpow1, hpow2]
    ring_nf
  rw [hrw1, land_two_pow_sub_one, Nat.mul_add_mod]
  have hmod2 : (2 ^ i - 2 ^ t) % 2 ^ i = 2 ^ i - 2 ^ t := Nat.mod_eq_of_lt (by omega)
  rw [hmod2, ← hid2, popCount_two_pow_mul, popCount_two_pow_sub_one]
  have hx1lt : 2 ^ i * (4 * H + 2) + 2 ^ t * (2 ^ (i - t) - 1) < 2 ^ 64 := by
    rw [hid2, ← hrw1]
    have h1 : 2 ^ (i + 2) * H + (2 ^ (i + 1) * 1 + (2 ^ i - 2 ^ t)) =
        x ^^^ 3 * 2 ^ i := hx1bits.symm
    rw [h1]
    have hxlt : x < 2 ^ 64 := hx64
    have h3lt : 3 * 2 ^ i < 2 ^ 64 := by
      have : (2 : Nat) ^ i ≤ 2 ^ 62 := Nat.pow_le_pow_right (by norm_num) hi62
      calc 3 * 2 ^ i ≤ 3 * 2 ^ 62 := by omega
        _ < 2 ^ 64 := by norm_num
    exact Nat.xor_lt_two_pow hxlt h3lt
  have hclear : (2 ^ i * (4 * H + 2) + 2 ^ t * (2 ^ (i - t) - 1)) &&& compl64 (2 ^ i - 1) =
      2 ^ i * (4 * H + 2) := by
    rw [clear_low_bits _ i hx1lt (by omega)]
    congr 1
    rw [Nat.mul_add_div (Nat.pos_pow_of_pos _ (by norm_num)),
      Nat.div_eq_of_lt (by rw [hid2]; omega), Nat.add_zero]
  rw [hclear, rshl_one (i - t) (by omega)]
  have hdisj : (2 ^ i * (4 * H + 2)) &&& (2 ^ (i - t) - 1) = 0 := by
    apply Nat.eq_of_testBit_eq
    intro j
    rw [Nat.testBit_land, Nat.zero_testBit, Nat.testBit_two_pow_sub_one]
    rcases Nat.lt_or_ge j i with hj | hj
    · conv_lhs => rw [← Nat.add_zero (2 ^ i * (4 * H + 2))]
      rw [testBit_composite i _ 0 (Nat.pos_pow_of_pos _ (by norm_num)) j,
        if_pos hj]
      simp [Nat.zero_testBit]
    · rw [decide_eq_false (by omega : ¬ j < i - t), Bool.and_false]
  rw [lor_eq_add_of_disjoint _ _ hdisj]
  rw [hpow1, hpow2]
  ring

/-- Correctness of the Gosper successor: it is strictly larger, preserves the
population count, and skips no intermediate value of the same population
count. -/
theorem gosper_correct (x : Nat) (hx : 1 ≤ x) (hx63 : x < 2 ^ 63) :
    x < SIter.gosperStep x ∧
    popCount (SIter.gosperStep x) = popCount x ∧
    ∀ y, x < y → y < SIter.gosperStep x → popCount y ≠ popCount x := by
  obtain ⟨i, t, H, hti, hi62, hxeq, hgeq⟩ := gosper_main x hx hx63
  have honet : (1 : Nat) ≤ 2 ^ t := Nat.one_le_two_pow
  have honeit : (1 : Nat) ≤ 2 ^ (i - t) := Nat.one_le_two_pow
  have hpowti : (2 : Nat) ^ t ≤ 2 ^ i := Nat.pow_le_pow_right (by norm_num) hti
  have hpowit : (2 : Nat) ^ (i - t) ≤ 2 ^ i := Nat.pow_le_pow_right (by norm_num) (by omega)
  have hp01 : (2 : Nat) ^ i < 2 ^ (i + 1) := Nat.pow_lt_pow_right (by norm_num) (by omega)
  have hp12 : (2 : Nat) ^ (i + 1) < 2 ^ (i + 2) := Nat.pow_lt_pow_right (by norm_num) (by omega)
  have hpow2 : (2 : Nat) ^ (i + 2) = 2 * 2 ^ (i + 1) := by rw [pow_succ]; ring
  have hid1 : 2 ^ t * (2 ^ (i + 1 - t) - 1) = 2 ^ (i + 1) - 2 ^ t := by
    have h1 : (2 : Nat) ^ t * ((2 ^ (i + 1 - t) - 1) + 1) = 2 ^ (i + 1) := by
      rw [Nat.sub_add_cancel Nat.one_le_two_pow, ← pow_add]
      congr 1
      omega
    have h2 : (2 : Nat) ^ t * ((2 ^ (i + 1 - t) - 1) + 1) =
        2 ^ t * (2 ^ (i + 1 - t) - 1) + 2 ^ t := by ring
    omega
  have hpc1 : popCount 1 = 1 := by
    have := popCount_two_pow_sub_one 1
    norm_num at this
    exact this
  have hlowxlt : 2 ^ (i + 1) - 2 ^ t < 2 ^ (i + 2) := by omega
  have hlowglt : 2 ^ (i + 1) + (2 ^ (i - t) - 1) < 2 ^ (i + 2) := by omega
  have hpcx : popCount x = popCount H + (i + 1 - t) := by
    rw [hxeq, popCount_split (i + 2) H _ hlowxlt, ← hid1, popCount_two_pow_mul,
      popCount_two_pow_sub_one]
  have hpcg : popCount (SIter.gosperStep x) = popCount H + (i + 1 - t) := by
    have hdisj : (2 ^ (i + 1)) &&& (2 ^ (i - t) - 1) = 0 := by
      apply Nat.eq_of_testBit_eq
      intro j
      rw [Nat.testBit_land, Nat.zero_testBit, Nat.testBit_two_pow_sub_one,
        Nat.testBit_two_pow]
      simp only [Bool.and_eq_false_iff, decide_eq_false_iff_not]
      omega
    have hinner : popCount (2 ^ (i + 1) + (2 ^ (i - t) - 1)) = 1 + (i - t) := by
      rw [popCount_add_of_disjoint _ _ hdisj, popCount_two_pow_sub_one]
      have h1 : popCount (2 ^ (i + 1)) = 1 := by
        have := popCount_two_pow_mul (i + 1) 1
        rw [mul_one] at this
        rw [this, hpc1]
      rw [h1]
    rw [hgeq, add_assoc, popCount_split (i + 2) H _ hlowglt, hinner]
    omega
  have hlt : x < SIter.gosperStep x := by omega
  refine ⟨hlt, hpcg.trans hpcx.symm, ?_⟩
  intro y hxy hyg hcontra
  have hpos22 : (0 : Nat) < 2 ^ (i + 2) := Nat.pos_pow_of_pos _ (by norm_num)
  have hydiv : y / 2 ^ (i + 2) = H := by
    apply Nat.div_eq_of_lt_le
    · have : H * 2 ^ (i + 2) = 2 ^ (i + 2) * H := by ring
      omega
    · have : (H + 1) * 2 ^ (i + 2) = 2 ^ (i + 2) * H + 2 ^ (i + 2) := by ring
      omega
  have hLlt : y % 2 ^ (i + 2) < 2 ^ (i + 2) := Nat.mod_lt y hpos22
  have hydm := Nat.div_add_mod y (2 ^ (i + 2))
  rw [hydiv] at hydm
  have hpcy : popCount y = popCount H + popCount (y % 2 ^ (i + 2)) := by
    conv_lhs => rw [← hydm]
    exact popCount_split (i + 2) H _ hLlt
  have hLbound1 : 2 ^ (i + 1) - 2 ^ t < y % 2 ^ (i + 2) := by omega
  have hLbound2 : y % 2 ^ (i + 2) < 2 ^ (i + 1) + (2 ^ (i - t) - 1) := by omega
  have hpcL : popCount (y % 2 ^ (i + 2)) = i + 1 - t := by omega
  rcases Nat.lt_or_ge (y % 2 ^ (i + 2)) (2 ^ (i + 1)) with hA | hB
  · -- low part below the boundary: its top block is forced, remainder nonzero
    have hpost : (0 : Nat) < 2 ^ t := honet
    have hidp : 2 ^ (i + 1 - t) * 2 ^ t = 2 ^ (i + 1) := by
      rw [← pow_add]
      congr 1
      omega
    have hLdiv : y % 2 ^ (i + 2) / 2 ^ t = 2 ^ (i + 1 - t) - 1 := by
      apply Nat.div_eq_of_lt_le
      · have hmul : (2 ^ (i + 1 - t) - 1) * 2 ^ t = 2 ^ (i + 1) - 2 ^ t := by
          rw [mul_comm]
          exact hid1
        omega
      · have hcan : (2 ^ (i + 1 - t) - 1 + 1) * 2 ^ t = 2 ^ (i + 1) := by
          rw [Nat.sub_add_cancel Nat.one_le_two_pow]
          exact hidp
        omega
    have hdm := Nat.div_add_mod (y % 2 ^ (i + 2)) (2 ^ t)
    rw [hLdiv, hid1] at hdm
    have hrpos : 0 < y % 2 ^ (i + 2) % 2 ^ t := by omega
    have hrlt : y % 2 ^ (i + 2) % 2 ^ t < 2 ^ t := Nat.mod_lt _ hpost
    have hsplitL : popCount (y % 2 ^ (i + 2)) =
        (i + 1 - t) + popCount (y % 2 ^ (i + 2) % 2 ^ t) := by
      conv_lhs => rw [← hdm, ← hid1]
      rw [popCount_split t _ _ hrlt, popCount_two_pow_sub_one]
    have := popCount_pos (y % 2 ^ (i + 2) % 2 ^ t) (by omega)
    omega
  · -- low part at or above the boundary: too few bits remain
    have hrlt2 : y % 2 ^ (i + 2) - 2 ^ (i + 1) < 2 ^ (i - t) - 1 := by omega
    have hrlt3 : y % 2 ^ (i + 2) - 2 ^ (i + 1) < 2 ^ (i + 1) := by omega
    have hsplitL : popCount (y % 2 ^ (i + 2)) =
        1 + popCount (y % 2 ^ (i + 2) - 2 ^ (i + 1)) := by
      conv_lhs => rw [show y % 2 ^ (i + 2) =
        2 ^ (i + 1) * 1 + (y % 2 ^ (i + 2) - 2 ^ (i + 1)) by omega]
      rw [popCount_split (i + 1) 1 _ hrlt3, hpc1]
    have := popCount_lt_of_lt (i - t) _ hrlt2
    omega

/-- One call to `next` under the `Equal` policy from a mid-chain state
(`current ≠ 0`, `limit ≠ 0`, `current < 2^n`): the Gosper successor is
yielded unless it falls outside the ground set. -/
theorem run_eq_step (n c x f : Nat) (hn : n ≤ 63) (hx0 : x ≠ 0)
    (hxn : x < 2 ^ n) (hc : c ≠ 0) :
    SIter.run ⟨x, n, some c, some .eq⟩ (f + 1) =
      if SIter.gosperStep x < 2 ^ n then
        SIter.gosperStep x :: SIter.run ⟨SIter.gosperStep x, n, some c, some .eq⟩ f
      else [] := by
  have hr : rshl 1 n = 2 ^ n := rshl_one n (by omega)
  have hbeq : (x == 0) = false := by simpa using hx0
  have hceq : (c == 0) = false := by simpa using hc
  have hnot1 : ¬ x ≥ 2 ^ n := by omega
  rcases Nat.lt_or_ge (SIter.gosperStep x) (2 ^ n) with hg | hg
  · rw [if_pos hg]
    simp [SIter.run, SIter.next, SIter.setNext, hr, hnot1, hbeq, hceq,
      show ¬ SIter.gosperStep x ≥ 2 ^ n by omega]
  · rw [if_neg (by omega)]
    simp [SIter.run, SIter.next, SIter.setNext, hr, hnot1, hbeq, hceq, hg]

/-- From a state `x` of population count `c` already yielded, the
`Equal`-policy iterator yields exactly the elements of `(x, 2^n)` of
population count `c`, in increasing order (as a filtered range). -/
theorem run_eq_chain (n c : Nat) (hn : n ≤ 63) (hc : 1 ≤ c) :
    ∀ d x f, 2 ^ n - x = d → popCount x = c → x < 2 ^ n → d ≤ f →
    SIter.run ⟨x, n, some c, some .eq⟩ f =
      (List.range' (x + 1) (2 ^ n - (x + 1))).filter (fun v => popCount v == c) := by
  intro d
  induction d using Nat.strong_induction_on with
  | _ d ih =>
    intro x f hd hpc hxn hf
    have hx0 : x ≠ 0 := by
      intro h
      rw [h, popCount_zero] at hpc
      omega
    have hx63 : x < 2 ^ 63 :=
      lt_of_lt_of_le hxn (Nat.pow_le_pow_right (by norm_num) hn)
    obtain ⟨hlt, hpcg, hmin⟩ := gosper_correct x (by omega) hx63
    obtain ⟨f', rfl⟩ : ∃ f', f = f' + 1 := ⟨f - 1, by omega⟩
    rw [run_eq_step n c x f' hn hx0 hxn (by omega)]
    rcases Nat.lt_or_ge (SIter.gosperStep x) (2 ^ n) with hg | hg
    · rw [if_pos hg]
      have hcons := filter_range'_eq_cons (fun v => popCount v == c) (x + 1)
        (2 ^ n - (x + 1)) (SIter.gosperStep x) (by omega) (by omega)
        (fun j hj1 hj2 => by
          have hne := hmin j (by omega) hj2
          simp only [beq_eq_false_iff_ne, ne_eq]
          omega)
        (by simp [hpcg, hpc])
      rw [hcons]
      congr 1
      have hlen : x + 1 + (2 ^ n - (x + 1)) - SIter.gosperStep x - 1 =
          2 ^ n - (SIter.gosperStep x + 1) := by omega
      rw [hlen]
      exact ih (2 ^ n - SIter.gosperStep x) (by omega) (SIter.gosperStep x) f'
        rfl (hpcg.trans hpc) hg (by omega)
    · rw [if_neg (by omega)]
      symm
      apply filter_range'_eq_nil
      intro j hj1 hj2
      have hne := hmin j (by omega) (by omega)
      simp only [beq_eq_false_iff_ne, ne_eq]
      omega

/-- The very first call under the `Equal` policy with a nonzero limit yields
`2^c - 1` unconditionally (the ground-set size is not consulted). -/
theorem run_eq_first (n c f : Nat) (hn : n ≤ 63) (hc : c ≠ 0) (hc63 : c ≤ 63) :
    SIter.run ⟨0, n, some c, some .eq⟩ (f + 1) =
      (2 ^ c - 1) :: SIter.run ⟨2 ^ c - 1, n, some c, some .eq⟩ f := by
  have hr : rshl 1 n = 2 ^ n := rshl_one n (by omega)
  have hrc : rshl 1 c = 2 ^ c := rshl_one c (by omega)
  have hpow : 0 < 2 ^ n := Nat.pos_pow_of_pos n (by norm_num)
  simp [SIter.run, SIter.next, SIter.setNext, hr, hrc,
    show 0 < c by omega, show ¬ (0 : Nat) ≥ 2 ^ n by omega]

/-- The `Equal` policy with limit `0` yields the empty set once and is then
exhausted. -/
theorem run_eq_zero (n f : Nat) (hn : n ≤ 63) :
    SIter.run ⟨0, n, some 0, some .eq⟩ (f + 2) = [0] := by
  have hr : rshl 1 n = 2 ^ n := rshl_one n (by omega)
  have hpow : 0 < 2 ^ n := Nat.pos_pow_of_pos n (by norm_num)
  simp [SIter.run, SIter.next, SIter.setNext, hr,
    show ¬ (0 : Nat) ≥ 2 ^ n by omega]

/-- The `Equal`-policy iterator over a ground set of size `n ≤ 63` with a
target cardinality `c ≤ n` produces exactly the ascending filtered range. -/
theorem run_equal_filter (n c f : Nat) (hn : n ≤ 63) (hcn : c ≤ n)
    (hf : 2 ^ n + 2 ≤ f) :
    SIter.run (equalIter n c) f =
      (List.range (2 ^ n)).filter (fun v => popCount v == c) := by
  have hpow : 0 < 2 ^ n := Nat.pos_pow_of_pos n (by norm_num)
  obtain ⟨f', rfl⟩ : ∃ f', f = f' + 2 := ⟨f - 2, by omega⟩
  rw [List.range_eq_range']
  rcases eq_or_ne c 0 with rfl | hc
  · rw [show equalIter n 0 = ⟨0, n, some 0, some .eq⟩ from rfl, run_eq_zero n f' hn]
    have hcons := filter_range'_eq_cons (fun v => popCount v == 0) 0 (2 ^ n) 0
      le_rfl (by omega)
      (fun j hj1 hj2 => absurd hj2 (by omega))
      (by simp [popCount_zero])
    rw [hcons]
    have hnil := filter_range'_eq_nil (fun v => popCount v == 0) 1 (0 + 2 ^ n - 0 - 1)
      (fun j hj1 hj2 => by
        simp only [beq_eq_false_iff_ne, ne_eq]
        intro h
        have := (popCount_eq_zero j).mp h
        omega)
    rw [hnil]
  · have hc63 : c ≤ 63 := by omega
    have h2c : 2 ^ c ≤ 2 ^ n := Nat.pow_le_pow_right (by norm_num) hcn
    have h2c1 : (1 : Nat) ≤ 2 ^ c := Nat.one_le_two_pow
    rw [show equalIter n c = ⟨0, n, some c, some .eq⟩ from rfl,
      run_eq_first n c (f' + 1) hn hc hc63,
      run_eq_chain n c hn (by omega) (2 ^ n - (2 ^ c - 1)) (2 ^ c - 1) (f' + 1)
        rfl (popCount_two_pow_sub_one c) (by omega) (by omega)]
    have hcons := filter_range'_eq_cons (fun v => popCount v == c) 0 (2 ^ n)
      (2 ^ c - 1) (by omega) (by omega)
      (fun j hj1 hj2 => by
        have := popCount_lt_of_lt c j hj2
        simp only [beq_eq_false_iff_ne, ne_eq]
        omega)
      (by simp [popCount_two_pow_sub_one])
    rw [hcons]
    have hlen : 0 + 2 ^ n - (2 ^ c - 1) - 1 = 2 ^ n - (2 ^ c - 1 + 1) := by omega
    rw [hlen]

/-- Counting: among `{0,…,2^n-1}` exactly `n.choose c` values have
population count `c` (Pascal recursion over the top bit). -/
theorem length_filter_popCount (n : Nat) : ∀ c : Nat,
    ((List.range (2 ^ n)).filter (fun v => popCount v == c)).length = n.choose c := by
  induction n with
  | zero =>
    intro c
    cases c with
    | zero => decide
    | succ c => simp [List.range_succ, popCount_zero]
  | succ n ih =>
    intro c
    have hsplit : 2 ^ (n + 1) = 2 ^ n + 2 ^ n := by rw [pow_succ]; ring
    rw [hsplit, List.range_add, List.filter_append, List.length_append, ih c]
    have hmap : ((List.range (2 ^ n)).map (fun j => 2 ^ n + j)).filter
        (fun v => popCount v == c) =
        ((List.range (2 ^ n)).filter (fun j => popCount (2 ^ n + j) == c)).map
          (fun j => 2 ^ n + j) := by
      rw [List.filter_map]
      rfl
    rw [hmap, List.length_map]
    have hcongr : (List.range (2 ^ n)).filter (fun j => popCount (2 ^ n + j) == c) =
        (List.range (2 ^ n)).filter (fun j => 1 + popCount j == c) := by
      apply List.filter_congr
      intro j hj
      rw [List.mem_range] at hj
      have hpc1 : popCount 1 = 1 := by
        have h := popCount_two_pow_sub_one 1
        norm_num at h
        exact h
      have : popCount (2 ^ n + j) = 1 + popCount j := by
        have h1 : (2 : Nat) ^ n + j = 2 ^ n * 1 + j := by ring
        rw [h1, popCount_split n 1 j hj, hpc1]
      rw [this]
    rw [hcongr]
    cases c with
    | zero =>
      have hnil : (List.range (2 ^ n)).filter (fun j => 1 + popCount j == 0) = [] := by
        rw [List.filter_eq_nil_iff]
        intro a ha
        simp
      rw [hnil]
      simp [Nat.choose_zero_right]
    | succ c =>
      have hsame : (List.range (2 ^ n)).filter (fun j => 1 + popCount j == c + 1) =
          (List.range (2 ^ n)).filter (fun j => popCount j == c) := by
        apply List.filter_congr
        intro j hj
        rcases eq_or_ne (popCount j) c with h | h
        · simp [h, Nat.add_comm]
        · have h2 : 1 + popCount j ≠ c + 1 := by omega
          simp [h, h2]
      rw [hsame, ih c, Nat.choose_succ_succ]
      simp only [Nat.succ_eq_add_one]
      omega

/-- C1 (corrected): for every ground-set size `n` strictly below the word
width (`n ≤ 63`) and every target cardinality `c ≤ n`, the `Equal`-policy
enumerator yields exactly the `n.choose c` subsets of `{0..n-1}` of
population count `c`, in strictly ascending numeric order, and is then
exhausted (the same list for every sufficiently large fuel); for `c = 0`
it yields the empty set exactly once.  At `n = 64`, which the claim's
"not exceeding the machine word width" admits, the property fails
(see the counterexample): `1 << 64` wraps to `1` and the enumerator stops
after its first yield. -/
theorem C1_equal_policy_enumeration (n c f : Nat) (hn : n ≤ 63) (hcn : c ≤ n)
    (hf : 2 ^ n + 2 ≤ f) :
    SIter.run (equalIter n c) f =
        (List.range (2 ^ n)).filter (fun v => popCount v == c) ∧
      (SIter.run (equalIter n c) f).length = n.choose c ∧
      (SIter.run (equalIter n c) f).Pairwise (· < ·) ∧
      (∀ v ∈ SIter.run (equalIter n c) f, popCount v = c ∧ v < 2 ^ n) ∧
      (c = 0 → SIter.run (equalIter n c) f = [0]) := by
  have hrun := run_equal_filter n c f hn hcn hf
  refine ⟨hrun, ?_, ?_, ?_, ?_⟩
  · rw [hrun, length_filter_popCount]
  · rw [hrun]
    exact List.Pairwise.sublist (List.filter_sublist _) (List.pairwise_lt_range _)
  · intro v hv
    rw [hrun, List.mem_filter, List.mem_range] at hv
    exact ⟨by simpa using hv.2, hv.1⟩
  · intro hc0
    subst hc0
    obtain ⟨f', rfl⟩ : ∃ f', f = f' + 2 :=
      ⟨f - 2, by have : 0 < 2 ^ n := Nat.pos_pow_of_pos n (by norm_num); omega⟩
    exact run_eq_zero n f' hn

/-- Witness for C1 at the claim's own instance `n = 6`, `c = 3`, fuel 66. -/
theorem C1_equal_policy_enumeration_witness :
    6 ≤ 63 ∧ 3 ≤ 6 ∧ 2 ^ 6 + 2 ≤ 66 ∧
      (SIter.run (equalIter 6 3) 66 =
          (List.range (2 ^ 6)).filter (fun v => popCount v == 3) ∧
        (SIter.run (equalIter 6 3) 66).length = Nat.choose 6 3 ∧
        (SIter.run (equalIter 6 3) 66).Pairwise (· < ·) ∧
        (∀ v ∈ SIter.run (equalIter 6 3) 66, popCount v = 3 ∧ v < 2 ^ 6) ∧
        (3 = 0 → SIter.run (equalIter 6 3) 66 = [0])) :=
  ⟨by norm_num, by norm_num, by norm_num,
    C1_equal_policy_enumeration 6 3 66 (by norm_num) (by norm_num) (by norm_num)⟩

/-- C1 counterexample to the claim as frozen: at `n = 64` — admitted by
"every ground-set size n not exceeding the machine word width" — with
`c = 3`, the `1 << n` exhaustion guard wraps to `1`, so the enumerator
yields exactly `[0b111]` and then claims exhaustion instead of producing
the `C(64,3)` subsets of cardinality 3. -/
theorem C1_counterexample :
    SIter.run (equalIter 64 3) 2 = [7] ∧
      ¬ (SIter.run (equalIter 64 3) 2).length = Nat.choose 64 3 := by
  decide

/-- C9 (corrected): construction fails (the source panics) exactly when the
ground-set size exceeds the word width — the check is the first statement of
`SetIterator::new`, so the error is immediate.  The default-mode enumeration
of all `2^n` subsets in ascending order with the empty set first holds for
`n ≤ 63`; at the word width itself (`n = 64`, admissible per the claim) the
`1 << n` guard wraps and the enumerator yields only the empty set, see the
counterexample. -/
theorem C9_constructor_and_default_enumeration (n f : Nat) :
    ((SIter.new? n).isOk ↔ n ≤ 64) ∧
      (n ≤ 63 → 2 ^ n + 1 ≤ f → ∀ it, SIter.new? n = .ok it →
        SIter.run it f = List.range (2 ^ n)) := by
  constructor
  · constructor
    · intro hok
      by_contra hgt
      push_neg at hgt
      rw [show SIter.new? n =
          .error "tried to create a set iterator on more elements than supported" from by
        simp only [SIter.new?]
        rw [if_pos (show n > wordBits from hgt)]] at hok
      simp [Except.isOk, Except.toBool] at hok
    · intro hle
      rw [show SIter.new? n = .ok ⟨0, n, none, none⟩ from by
        simp only [SIter.new?]
        rw [if_neg (show ¬ n > wordBits from by show ¬ n > 64; omega)]]
      rfl
  · intro hn hf it hit
    have hok : SIter.new? n = .ok ⟨0, n, none, none⟩ := by
      simp only [SIter.new?]
      rw [if_neg (show ¬ n > wordBits from by show ¬ n > 64; omega)]
    rw [hok] at hit
    injection hit with h
    subst h
    rw [run_scan n none none hn (by simp) f 0 (Nat.zero_le _) (by omega)]
    have hsat : (fun y => SIter.satisfy_limit ⟨0, n, none, none⟩ y) =
        fun _ => true := by
      funext y
      rfl
    rw [hsat, List.filter_true, Nat.sub_zero, ← List.range_eq_range']

/-- C9 counterexample to the claim as frozen: `n = 64` is admissible (the
constructor succeeds), but the default-mode enumerator yields only the empty
set instead of all `2^64` subsets, because `1 << 64` wraps to `1`. -/
theorem C9_counterexample :
    (SIter.new? 64).isOk = true ∧
      SIter.run (allIter 64) 3 = [0] ∧
      ¬ (SIter.run (allIter 64) 3).length = 2 ^ 64 := by
  refine ⟨rfl, by decide, by decide⟩

/-- C10 (corrected): for `n ≤ 63`, every value yielded by a subset
enumerator in default mode, under a scanning policy whose size limit is
set (an unset limit makes the source panic on the first yield, a state
the model does not represent), or under the `Equal` policy with an
in-range target cardinality `c ≤ n`, is a subset of the ground set
(numerically below `2^n`).  The claim's second half is false as frozen:
with `c > n` the `Equal`-policy enumerator need not yield nothing — its
first yield, `(1 << c) - 1` with the shift masked by the word width, is
produced before any ground-set check; at `n = 2`, `c = 3` it yields
`0b111`, see the counterexample. -/
theorem C10_yields_within_ground_set (n c l f v : Nat) (hn : n ≤ 63) :
    (∀ sl, 2 ^ n + 1 ≤ f → v ∈ SIter.run ⟨0, n, sl, none⟩ f → v < 2 ^ n) ∧
    (∀ pol, pol ≠ some RLimitPolicy.eq → 2 ^ n + 1 ≤ f →
      v ∈ SIter.run ⟨0, n, some l, pol⟩ f → v < 2 ^ n) ∧
    (c ≤ n → 2 ^ n + 2 ≤ f → v ∈ SIter.run (equalIter n c) f → v < 2 ^ n) := by
  refine ⟨?_, ?_, ?_⟩
  · intro sl hf hv
    rw [run_scan n sl none hn (by simp) f 0 (Nat.zero_le _) (by omega)] at hv
    have := (List.mem_filter.mp hv).1
    rw [List.mem_range'_1] at this
    omega
  · intro pol hpol hf hv
    rw [run_scan n (some l) pol hn hpol f 0 (Nat.zero_le _) (by omega)] at hv
    have := (List.mem_filter.mp hv).1
    rw [List.mem_range'_1] at this
    omega
  · intro hcn hf hv
    rw [run_equal_filter n c f hn hcn hf] at hv
    have := (List.mem_filter.mp hv).1
    rw [List.mem_range] at this
    exact this

/-- Witness for C10 at `n = 2`, `c = 1`, `l = 1`, `v = 1`, fuel 7. -/
theorem C10_yields_within_ground_set_witness :
    2 ≤ 63 ∧
      ((∀ sl, 2 ^ 2 + 1 ≤ 7 → 1 ∈ SIter.run ⟨0, 2, sl, none⟩ 7 → 1 < 2 ^ 2) ∧
      (∀ pol, pol ≠ some RLimitPolicy.eq → 2 ^ 2 + 1 ≤ 7 →
        1 ∈ SIter.run ⟨0, 2, some 1, pol⟩ 7 → 1 < 2 ^ 2) ∧
      (1 ≤ 2 → 2 ^ 2 + 2 ≤ 7 → 1 ∈ SIter.run (equalIter 2 1) 7 → 1 < 2 ^ 2)) :=
  ⟨by norm_num, C10_yields_within_ground_set 2 1 1 7 1 (by norm_num)⟩

/-- C10 counterexample to the claim as frozen: under policy `Equal` with
`n = 2 < 3 = c`, the enumerator does not yield nothing — it yields
`0b111`, a subset that is moreover not contained in the 2-element ground
set. -/
theorem C10_counterexample :
    SIter.run (equalIter 2 3) 10 = [7] ∧
      ¬ SIter.run (equalIter 2 3) 10 = [] ∧
      ¬ (7 < 2 ^ 2) := by
  decide

/-- C5: code bug.  `leftmost_element` computes the bit index through a
lossy `f32` cast (`(content as f32).log2() as usize`).  For the set
`{0,…,24}`, i.e. content `2^25 - 1`, the cast rounds (ties-to-even) up to
`2^25`, so `leftmost_element` answers `25` although the highest set bit —
bracketed by `2^24 ≤ content < 2^25`, bit 24 set, bit 25 clear — is `24`,
which the exact integer logarithm `elog2` returns. -/
theorem C5_leftmost_element_code_bug :
    RSet.leftmost_element (2 ^ 25 - 1) = 25 ∧
      2 ^ 24 ≤ (2 ^ 25 - 1 : Nat) ∧ (2 ^ 25 - 1 : Nat) < 2 ^ 25 ∧
      Nat.testBit (2 ^ 25 - 1) 24 = true ∧
      Nat.testBit (2 ^ 25 - 1) 25 = false ∧
      elog2 (2 ^ 25 - 1) = 24 := by
  decide

/-- C7: the combinatorial derived matroid of U(5,6) — one source circuit,
namely the full ground set `0b111111` — is structurally equal to U(1,1):
ground-set size 1, nominal rank 1, and the same independence classification
of both subsets of the 1-element ground set. -/
theorem C7_derived_u56_is_u11 :
    RMatroid.is_equalProp
        (derivedMatroid (from_matroid (uniformMatroid 5 6) true 66))
        (uniformMatroid 1 1) ∧
      (derivedMatroid (from_matroid (uniformMatroid 5 6) true 66)).n = 1 ∧
      (derivedMatroid (from_matroid (uniformMatroid 5 6) true 66)).k = 1 ∧
      (uniformMatroid 5 6).circuitsList 66 = [63] := by
  refine ⟨?_, by decide, by decide, by decide⟩
  unfold RMatroid.is_equalProp
  decide

/-- Intersecting with a fixed set is monotone w.r.t. inclusion, measured by
population count. -/
theorem popCount_land_subset (b x y : Nat) (h : x &&& y = x) :
    popCount (b &&& x) ≤ popCount (b &&& y) := by
  apply popCount_le_of_subset
  apply Nat.eq_of_testBit_eq
  intro j
  rw [Nat.testBit_land, Nat.testBit_land, Nat.testBit_land]
  cases hb : Nat.testBit b j
  · simp
  · simp only [Bool.true_and]
    cases hx : Nat.testBit x j
    · simp
    · have := testBit_of_subset x y h j
      rw [hx] at this
      simp only [Bool.true_and] at this
      simp [this]

/-- `rankGivenBases` never exceeds the subset's own cardinality. -/
theorem rankGivenBases_le (x : Nat) : ∀ bases (m : Nat),
    rankGivenBases x bases m ≤ max m (popCount x) := by
  intro bases
  induction bases with
  | nil => intro m; simp [rankGivenBases]
  | cons b rest ih =>
    intro m
    simp only [rankGivenBases]
    have hle : popCount (b &&& x) ≤ popCount x := popCount_land_le_right b x
    split <;> split <;> first
      | omega
      | exact le_trans (ih _) (by omega)

/-- When every base has the common cardinality `k`, `rankGivenBases` stays
below `k` (so the early break in the source is sound). -/
theorem rankGivenBases_le_k (x k : Nat) : ∀ bases (m : Nat),
    (∀ b ∈ bases, popCount b = k) → m ≤ k →
    rankGivenBases x bases m ≤ k := by
  intro bases
  induction bases with
  | nil => intro m _ hm; exact hm
  | cons b rest ih =>
    intro m hall hm
    have hb : popCount b = k := hall b (List.mem_cons_self b rest)
    have hrest : ∀ b' ∈ rest, popCount b' = k :=
      fun b' h => hall b' (List.mem_cons_of_mem b h)
    have hik : popCount (b &&& x) ≤ k := by
      rw [← hb]
      exact popCount_land_le_left b x
    simp only [rankGivenBases]
    split <;> split <;> first
      | omega
      | exact ih _ hrest (by omega)

/-- Monotonicity of `rankGivenBases` under inclusion, for bases of one
common cardinality. -/
theorem rankGivenBases_mono (x y k : Nat) (hxy : x &&& y = x) :
    ∀ bases (m m' : Nat), (∀ b ∈ bases, popCount b = k) →
    m ≤ m' → m' ≤ k →
    rankGivenBases x bases m ≤ rankGivenBases y bases m' := by
  intro bases
  induction bases with
  | nil => intro m m' _ hmm _; exact hmm
  | cons b rest ih =>
    intro m m' hall hmm hm'k
    have hb : popCount b = k := hall b (List.mem_cons_self b rest)
    have hrest : ∀ b' ∈ rest, popCount b' = k :=
      fun b' h => hall b' (List.mem_cons_of_mem b h)
    have hixy : popCount (b &&& x) ≤ popCount (b &&& y) := popCount_land_subset b x y hxy
    have hiyk : popCount (b &&& y) ≤ k := by
      rw [← hb]
      exact popCount_land_le_left b y
    have hixk : popCount (b &&& x) ≤ k := le_trans hixy hiyk
    by_cases hy : (if popCount (b &&& y) > m' then popCount (b &&& y) else m') = k
    · -- the `y` run reaches the common size and breaks; `x` stays below it
      have hxk : rankGivenBases x (b :: rest) m ≤ k :=
        rankGivenBases_le_k x k (b :: rest) m hall (le_trans hmm hm'k)
      have hyk : rankGivenBases y (b :: rest) m' = k := by
        simp only [rankGivenBases]
        rw [if_pos (beq_iff_eq.mpr (hy.trans hb.symm))]
        exact hy
      rw [hyk]
      exact hxk
    · -- neither run breaks: recurse with the updated running maxima
      have hmy : (if popCount (b &&& y) > m' then popCount (b &&& y) else m') ≤ k := by
        split <;> omega
      have hmx_le : (if popCount (b &&& x) > m then popCount (b &&& x) else m) ≤
          (if popCount (b &&& y) > m' then popCount (b &&& y) else m') := by
        split <;> split <;> omega
      have hx_ne : ¬ ((if popCount (b &&& x) > m then popCount (b &&& x) else m) = k) := by
        omega
      simp only [rankGivenBases]
      rw [if_neg (fun hcon => hx_ne ((beq_iff_eq.mp hcon).trans hb)),
        if_neg (fun hcon => hy ((beq_iff_eq.mp hcon).trans hb))]
      exact ih _ _ hrest hmx_le hmy

/-- C4 (corrected): the uniform rank oracle `min(|X|, k)` satisfies all
three rank axioms — bounds, monotonicity under inclusion, and
submodularity.  The basis-table oracle of `BasesMatroid`, for any
duplicate-free list of bases of one common cardinality `k`, satisfies the
bounds and monotonicity; submodularity, however, is not implied by those
preconditions and fails for a constructible instance (see the
counterexample), so the claim is corrected to drop it for basis-table
matroids. -/
theorem C4_rank_axioms (k n : Nat) (bases : List Nat) (X Y : Nat)
    (hsizes : ∀ b ∈ bases, popCount b = k) :
    ((uniformMatroid k n).rank X ≤ popCount X ∧
      (X &&& Y = X → (uniformMatroid k n).rank X ≤ (uniformMatroid k n).rank Y) ∧
      (uniformMatroid k n).rank (X ||| Y) + (uniformMatroid k n).rank (X &&& Y) ≤
        (uniformMatroid k n).rank X + (uniformMatroid k n).rank Y) ∧
    ((basesMatroid bases n k).rank X ≤ popCount X ∧
      (X &&& Y = X →
        (basesMatroid bases n k).rank X ≤ (basesMatroid bases n k).rank Y)) := by
  refine ⟨⟨?_, ?_, ?_⟩, ?_, ?_⟩
  · show min (popCount X) k ≤ popCount X
    omega
  · intro hsub
    show min (popCount X) k ≤ min (popCount Y) k
    have := popCount_le_of_subset X Y hsub
    omega
  · show min (popCount (X ||| Y)) k + min (popCount (X &&& Y)) k ≤
      min (popCount X) k + min (popCount Y) k
    have h1 := popCount_lor_add_land X Y
    have h2 := popCount_land_le_left X Y
    have h3 := popCount_land_le_right X Y
    omega
  · show rankGivenBases X bases 0 ≤ popCount X
    have := rankGivenBases_le X bases 0
    omega
  · intro hsub
    show rankGivenBases X bases 0 ≤ rankGivenBases Y bases 0
    exact rankGivenBases_mono X Y k hsub bases 0 0 hsizes le_rfl (Nat.zero_le k)

/-- Witness for C4 on `U(2,4)` and the basis table `{{0,1},{0,2}}` with
`X = {0,1}`, `Y = {0,1,2}`. -/
theorem C4_rank_axioms_witness :
    (∀ b ∈ [3, 5], popCount b = 2) ∧
      (((uniformMatroid 2 4).rank 3 ≤ popCount 3 ∧
        (3 &&& 7 = 3 → (uniformMatroid 2 4).rank 3 ≤ (uniformMatroid 2 4).rank 7) ∧
        (uniformMatroid 2 4).rank (3 ||| 7) + (uniformMatroid 2 4).rank (3 &&& 7) ≤
          (uniformMatroid 2 4).rank 3 + (uniformMatroid 2 4).rank 7) ∧
      ((basesMatroid [3, 5] 4 2).rank 3 ≤ popCount 3 ∧
        (3 &&& 7 = 3 →
          (basesMatroid [3, 5] 4 2).rank 3 ≤ (basesMatroid [3, 5] 4 2).rank 7))) :=
  ⟨by decide, C4_rank_axioms 2 4 [3, 5] 3 7 (by decide)⟩

/-- C4 counterexample to the claim as frozen: `[{0,1}, {2,3}]` is a
duplicate-free list of bases of equal cardinality `2 ≤ 4`, yet the rank of
`BasesMatroid` is not submodular: with `X = {0,2}` and `Y = {0,3}`,
`rank(X∪Y) + rank(X∩Y) = 2 + 1 > 1 + 1 = rank(X) + rank(Y)`. -/
theorem C4_counterexample :
    ((3 : Nat) ≠ 12 ∧ popCount 3 = 2 ∧ popCount 12 = 2 ∧
      (3 : Nat) < 2 ^ 4 ∧ (12 : Nat) < 2 ^ 4 ∧ 2 ≤ 4) ∧
      ¬ ((basesMatroid [3, 12] 4 2).rank (5 ||| 9) +
            (basesMatroid [3, 12] 4 2).rank (5 &&& 9) ≤
          (basesMatroid [3, 12] 4 2).rank 5 + (basesMatroid [3, 12] 4 2).rank 9) := by
  decide

/-- Wrapping subtraction agrees with truncated subtraction when it does not
wrap. -/
theorem wsub_small (a b : Nat) (hb : b ≤ a) (ha : a < 2 ^ 64) : wsub a b = a - b := by
  unfold wsub usizeSize
  rw [Nat.mod_eq_of_lt (show b < 2 ^ 64 by omega)]
  have h1 : a + 2 ^ 64 - b = (a - b) + 1 * 2 ^ 64 := by omega
  rw [h1, Nat.add_mul_mod_self_right, Nat.mod_eq_of_lt (by omega)]

/-- Complementation inside the full ground set `of_size n` (for `n ≤ 63`):
cardinality, involutivity, and containment. -/
theorem complement_facts (n x : Nat) (hn : n ≤ 63) (hx : x < 2 ^ n) :
    popCount (RSet.difference (RSet.of_size n) x) = n - popCount x ∧
      RSet.difference (RSet.of_size n) (RSet.difference (RSet.of_size n) x) = x ∧
      RSet.difference (RSet.of_size n) x < 2 ^ n := by
  have hg : RSet.of_size n = 2 ^ n - 1 := by
    unfold RSet.of_size
    rw [rshl_one n (by omega)]
  have hpow : (2 : Nat) ^ n ≤ 2 ^ 63 := Nat.pow_le_pow_right (by norm_num) hn
  have h64 : (2 : Nat) ^ 63 < 2 ^ 64 := by norm_num
  have hglt : (2 : Nat) ^ n - 1 < 2 ^ 64 := by omega
  have hxlt : x < 2 ^ 64 := by omega
  have hytb : ∀ j, (RSet.difference (RSet.of_size n) x).testBit j =
      (decide (j < n) && !x.testBit j) := by
    intro j
    rw [hg, difference_testBit _ _ hglt hxlt j, Nat.testBit_two_pow_sub_one]
  have hylt : RSet.difference (RSet.of_size n) x < 2 ^ n := by
    have hle : RSet.difference (RSet.of_size n) x ≤ RSet.of_size n := Nat.and_le_left
    have hp : (0 : Nat) < 2 ^ n := Nat.pos_pow_of_pos n (by norm_num)
    omega
  have hdd : RSet.difference (RSet.of_size n)
      (RSet.difference (RSet.of_size n) x) = x := by
    apply Nat.eq_of_testBit_eq
    intro j
    rw [difference_testBit _ _ (by omega) (by omega) j, hytb j,
      hg, Nat.testBit_two_pow_sub_one]
    rcases Nat.lt_or_ge j n with hj | hj
    · simp [hj]
    · have hxj : x.testBit j = false :=
        Nat.testBit_lt_two_pow
          (lt_of_lt_of_le hx (Nat.pow_le_pow_right (by norm_num) hj))
      simp [hxj, show ¬ j < n by omega]
  have hdisj : (RSet.difference (RSet.of_size n) x) &&& x = 0 := by
    apply Nat.eq_of_testBit_eq
    intro j
    rw [Nat.testBit_land, hytb j, Nat.zero_testBit]
    cases hxj : x.testBit j <;> simp [hxj]
  have hlor : (RSet.difference (RSet.of_size n) x) ||| x = RSet.of_size n := by
    apply Nat.eq_of_testBit_eq
    intro j
    rw [Nat.testBit_lor, hytb j, hg, Nat.testBit_two_pow_sub_one]
    rcases Nat.lt_or_ge j n with hj | hj
    · cases hxj : x.testBit j <;> simp [hj, hxj]
    · have hxj : x.testBit j = false :=
        Nat.testBit_lt_two_pow
          (lt_of_lt_of_le hx (Nat.pow_le_pow_right (by norm_num) hj))
      simp [hxj, show ¬ j < n by omega]
  have hpc : popCount (RSet.difference (RSet.of_size n) x) + popCount x = n := by
    have h := popCount_lor_add_land (RSet.difference (RSet.of_size n) x) x
    rw [hlor, hdisj, popCount_zero] at h
    have hpcg : popCount (RSet.of_size n) = n := by
      rw [hg, popCount_two_pow_sub_one]
    omega
  exact ⟨by omega, hdd, hylt⟩

/-- C8 (corrected): for every matroid on a ground set strictly below the
word width whose rank oracle satisfies the basic contracts
(`rank(X) ≤ |X|`, `k ≤ n`, and nonnegative corank
`k ≤ rank(X) + |complement of X|`, all consequences of the rank axioms with
`k = rank(ground set)`), the double dual has the same ground-set size, the
same nominal rank, the same rank oracle on the ground set, and hence the
same independence classification.  At `n = 64` the identity fails
(`of_size 64` wraps to the empty set, see the counterexample), so the
claim's "for every matroid" is corrected to `n ≤ 63`. -/
theorem C8_double_dual (M : RMatroid) (hn : M.n ≤ 63) (hk : M.k ≤ M.n)
    (hrle : ∀ x, x < 2 ^ M.n → M.rank x ≤ popCount x)
    (hcor : ∀ x, x < 2 ^ M.n → M.k ≤ M.rank x + (M.n - popCount x)) :
    RMatroid.is_equalProp (dualM (dualM M)) M ∧
      (∀ x, x < 2 ^ M.n → (dualM (dualM M)).rank x = M.rank x) := by
  have h64 : (2 : Nat) ^ 63 < 2 ^ 64 := by norm_num
  have hn64 : M.n < 2 ^ 64 := by omega
  have hDk : (dualM M).k = M.n - M.k := wsub_small M.n M.k hk hn64
  have hDDk : (dualM (dualM M)).k = M.k := by
    show wsub (dualM M).n (dualM M).k = M.k
    have h1 : (dualM M).n = M.n := rfl
    rw [h1, hDk, wsub_small M.n (M.n - M.k) (by omega) hn64]
    omega
  have hrankDD : ∀ x, x < 2 ^ M.n → (dualM (dualM M)).rank x = M.rank x := by
    intro x hx
    obtain ⟨hq, hyy, hylt⟩ := complement_facts M.n x hn hx
    have hp : popCount x ≤ M.n := popCount_le_of_lt_two_pow M.n x hx
    have hr : M.rank x ≤ popCount x := hrle x hx
    have hcorx : M.k ≤ M.rank x + (M.n - popCount x) := hcor x hx
    have hqn : popCount (RSet.difference (RSet.of_size M.n) x) ≤ M.n := by omega
    have hDranky : (dualM M).rank (RSet.difference (RSet.of_size M.n) x) =
        M.rank x + (M.n - popCount x) - M.k := by
      show wsub (wadd (M.rank (RSet.difference (RSet.of_size M.n)
          (RSet.difference (RSet.of_size M.n) x)))
        (popCount (RSet.difference (RSet.of_size M.n) x))) M.k = _
      rw [hyy, hq, wadd_small _ _ (by omega),
        wsub_small _ _ (by omega) (by omega)]
    show wsub (wadd ((dualM M).rank (RSet.difference (RSet.of_size (dualM M).n) x))
        (popCount x)) ((dualM M).k) = M.rank x
    have h1 : (dualM M).n = M.n := rfl
    rw [h1, hDranky, hDk, wadd_small _ _ (by omega),
      wsub_small _ _ (by omega) (by omega)]
    omega
  refine ⟨⟨rfl, hDDk, ?_⟩, hrankDD⟩
  intro x hx
  have hx' : x < 2 ^ M.n := hx
  unfold RMatroid.is_independent
  rw [hrankDD x hx']

/-- Witness for C8 on `U(2,4)`. -/
theorem C8_double_dual_witness :
    (uniformMatroid 2 4).n ≤ 63 ∧ (uniformMatroid 2 4).k ≤ (uniformMatroid 2 4).n ∧
      (∀ x, x < 2 ^ (uniformMatroid 2 4).n →
        (uniformMatroid 2 4).rank x ≤ popCount x) ∧
      (∀ x, x < 2 ^ (uniformMatroid 2 4).n →
        (uniformMatroid 2 4).k ≤ (uniformMatroid 2 4).rank x +
          ((uniformMatroid 2 4).n - popCount x)) ∧
      (RMatroid.is_equalProp (dualM (dualM (uniformMatroid 2 4))) (uniformMatroid 2 4) ∧
        (∀ x, x < 2 ^ (uniformMatroid 2 4).n →
          (dualM (dualM (uniformMatroid 2 4))).rank x = (uniformMatroid 2 4).rank x)) :=
  ⟨by decide, by decide, by decide, by decide,
    C8_double_dual (uniformMatroid 2 4) (by decide) (by decide) (by decide) (by decide)⟩

/-- C8 counterexample to the claim as frozen: for `U(1,64)` — constructible
in the library, since ground sets up to the word width are accepted — the
double dual misclassifies the empty set: `of_size 64` wraps to `0`, the
inner dual rank of the empty set wraps to `2^64 - 1`, and the double-dual
rank of the empty set is `2^64 - 64` instead of `0`. -/
theorem C8_counterexample :
    ¬ RMatroid.is_equalProp (dualM (dualM (uniformMatroid 1 64))) (uniformMatroid 1 64) := by
  intro h
  have h0 := h.2.2 0 (by norm_num)
  have hDD : (dualM (dualM (uniformMatroid 1 64))).is_independent 0 = false := by decide
  have hM : (uniformMatroid 1 64).is_independent 0 = true := by decide
  rw [hDD, hM] at h0
  exact absurd h0 (by decide)

/-- The loop guard `(x >>> j) & 1 == 1` tests exactly bit `j`. -/
theorem shift_land_one_beq (t j : Nat) : ((t >>> j) &&& 1 == 1) = t.testBit j := by
  rw [Nat.testBit_to_div_mod, Nat.shiftRight_eq_div_pow, Nat.and_one_is_mod]
  cases h : t / 2 ^ j % 2 == 1
  · simp at h
    simp [h]
  · simp at h
    simp [h]

/-- Truncating to a low window never increases the population count. -/
theorem popCount_mod_le (x j : Nat) : popCount (x % 2 ^ j) ≤ popCount x := by
  conv_rhs => rw [← Nat.div_add_mod x (2 ^ j)]
  rw [popCount_split j (x / 2 ^ j) (x % 2 ^ j)
    (Nat.mod_lt x (Nat.pos_pow_of_pos j (by norm_num)))]
  omega

/-- Stepping the low window across position `j` adds bit `j`. -/
theorem popCount_mod_succ (t j : Nat) :
    popCount (t % 2 ^ (j + 1)) =
      popCount (t % 2 ^ j) + (if t.testBit j then 1 else 0) := by
  have h1 : t % 2 ^ (j + 1) = 2 ^ j * (t / 2 ^ j % 2) + t % 2 ^ j := by
    rw [pow_succ, Nat.mod_mul]
    ring
  rw [h1, popCount_split j _ _ (Nat.mod_lt t (Nat.pos_pow_of_pos j (by norm_num))),
    Nat.testBit_to_div_mod]
  have h2 : t / 2 ^ j % 2 = 0 ∨ t / 2 ^ j % 2 = 1 := by omega
  rcases h2 with h | h <;> rw [h] <;> simp [popCount_zero, popCount_one] <;> omega

/-- Window monotonicity of the running index. -/
theorem popCount_mod_mono (t j j' : Nat) (h : j ≤ j') :
    popCount (t % 2 ^ j) ≤ popCount (t % 2 ^ j') := by
  have hdvd : (2 : Nat) ^ j ∣ 2 ^ j' := pow_dvd_pow 2 h
  rw [← Nat.mod_mod_of_dvd t hdvd]
  exact popCount_mod_le (t % 2 ^ j') j

/-- A set bit at the window boundary makes the index strictly grow. -/
theorem popCount_mod_lt_of_testBit (t j : Nat) (h : t.testBit j = true) :
    popCount (t % 2 ^ j) < popCount t := by
  have h1 := popCount_mod_succ t j
  rw [if_pos h] at h1
  have h2 := popCount_mod_le t (j + 1)
  omega

/-- Bit-level invariant of the `extend` loop: on exit, bit `j'` of the
result is set iff `t` has bit `j'` and `s` has the bit whose index is the
number of set bits of `t` below position `j'`. -/
theorem extendLoop_bits (s t sl kl : Nat) (hs : s < 2 ^ (sl + 1))
    (ht : t < 2 ^ (kl + 1)) (hkl : kl ≤ 63) (hsl : sl ≤ 63) :
    ∀ fuel j i content, i = popCount (t % 2 ^ j) →
    (∀ j', content.testBit j' =
      (decide (j' < j) && (t.testBit j' && s.testBit (popCount (t % 2 ^ j'))))) →
    kl + 2 - j ≤ fuel →
    ∀ j', (RSet.extendLoop s t sl kl fuel i j content).testBit j' =
      (t.testBit j' && s.testBit (popCount (t % 2 ^ j'))) := by
  intro fuel
  induction fuel with
  | zero =>
    intro j i content hi hc hf j'
    rw [show RSet.extendLoop s t sl kl 0 i j content = content from rfl, hc j']
    rcases Nat.lt_or_ge j' j with hj | hj
    · simp [hj]
    · have htj : t.testBit j' = false :=
        Nat.testBit_lt_two_pow
          (lt_of_lt_of_le ht (Nat.pow_le_pow_right (by norm_num) (by omega)))
      simp [htj, show ¬ j' < j from by omega]
  | succ f ih =>
    intro j i content hi hc hf j'
    rw [show RSet.extendLoop s t sl kl (f + 1) i j content =
      (if i ≤ sl ∧ j ≤ kl then
        if rshr t j &&& 1 == 1 then
          RSet.extendLoop s t sl kl f (i + 1) (j + 1)
            (content ||| rshl (rshr s i &&& 1) j)
        else RSet.extendLoop s t sl kl f i (j + 1) content
      else content) from rfl]
    by_cases hcont : i ≤ sl ∧ j ≤ kl
    · rw [if_pos hcont]
      have hb2 : rshr s i &&& 1 = s / 2 ^ i % 2 := by
        rw [rshr_small s i (by omega), Nat.shiftRight_eq_div_pow, Nat.and_one_is_mod]
      have hble : s / 2 ^ i % 2 ≤ 1 := by omega
      by_cases htj : t.testBit j = true
      · rw [if_pos (show (rshr t j &&& 1 == 1) = true from by
          rw [rshr_small t j (by omega), shift_land_one_beq t j]; exact htj)]
        have hpj : (2 : Nat) ^ j ≤ 2 ^ 63 := Nat.pow_le_pow_right (by norm_num) (by omega)
        have h63 : (2 : Nat) ^ 63 < 2 ^ 64 := by norm_num
        have hrb : rshl (rshr s i &&& 1) j = (s / 2 ^ i % 2) * 2 ^ j := by
          rw [hb2]
          exact rshl_eq _ j (by omega) (by
            rcases Nat.le_one_iff_eq_zero_or_eq_one.mp hble with h | h <;> rw [h] <;> omega)
        have h1 : i + 1 = popCount (t % 2 ^ (j + 1)) := by
          rw [popCount_mod_succ, if_pos htj, ← hi]
        have h2 : ∀ j'', (content ||| rshl (rshr s i &&& 1) j).testBit j'' =
            (decide (j'' < j + 1) &&
              (t.testBit j'' && s.testBit (popCount (t % 2 ^ j'')))) := by
          intro j''
          rw [Nat.testBit_lor, hc j'', hrb]
          rcases Nat.le_one_iff_eq_zero_or_eq_one.mp hble with hb | hb
          · -- bit `i` of `s` is clear: nothing is added
            rw [hb, zero_mul]
            have hsb : s.testBit i = false := by
              rw [Nat.testBit_to_div_mod, hb]
              simp
            rcases Nat.lt_trichotomy j'' j with hj | hj | hj
            · simp [hj, Nat.zero_testBit, show j'' < j + 1 from by omega]
            · subst hj
              rw [← hi, hsb]
              simp [Nat.zero_testBit]
            · simp [Nat.zero_testBit, show ¬ j'' < j from by omega,
                show ¬ j'' < j + 1 from by omega]
          · -- bit `i` of `s` is set: position `j` is added
            rw [hb, one_mul]
            have hsb : s.testBit i = true := by
              rw [Nat.testBit_to_div_mod, hb]
              simp
            rcases Nat.lt_trichotomy j'' j with hj | hj | hj
            · rw [Nat.testBit_two_pow]
              simp [hj, show j'' < j + 1 from by omega, show ¬ j = j'' from by omega]
            · subst hj
              rw [Nat.testBit_two_pow, ← hi, hsb, htj]
              simp
            · rw [Nat.testBit_two_pow]
              simp [show ¬ j'' < j from by omega, show ¬ j'' < j + 1 from by omega,
                show ¬ j = j'' from by omega]
        exact ih (j + 1) (i + 1) _ h1 h2 (by omega) j'
      · rw [if_neg (show ¬ (rshr t j &&& 1 == 1) = true from by
          rw [rshr_small t j (by omega), shift_land_one_beq t j]; simpa using htj)]
        have htjf : t.testBit j = false := by simpa using htj
        have h1 : i = popCount (t % 2 ^ (j + 1)) := by
          rw [popCount_mod_succ, if_neg (by simp [htjf]), ← hi]
          omega
        have h2 : ∀ j'', content.testBit j'' =
            (decide (j'' < j + 1) &&
              (t.testBit j'' && s.testBit (popCount (t % 2 ^ j'')))) := by
          intro j''
          rw [hc j'']
          rcases Nat.lt_trichotomy j'' j with hj | hj | hj
          · simp [hj, show j'' < j + 1 from by omega]
          · subst hj
            rw [htjf]
            simp
          · simp [show ¬ j'' < j from by omega, show ¬ j'' < j + 1 from by omega]
        exact ih (j + 1) i content h1 h2 (by omega) j'
    · rw [if_neg hcont, hc j']
      rcases Nat.lt_or_ge j' j with hj | hj
      · simp [hj]
      · rcases Nat.lt_or_ge sl i with hisl | hisl
        · -- the `i > sl` exit: every remaining index overshoots `s`
          have hmono : popCount (t % 2 ^ j) ≤ popCount (t % 2 ^ j') :=
            popCount_mod_mono t j j' hj
          have hsbit : s.testBit (popCount (t % 2 ^ j')) = false := by
            apply Nat.testBit_lt_two_pow
            calc s < 2 ^ (sl + 1) := hs
              _ ≤ 2 ^ popCount (t % 2 ^ j') :=
                Nat.pow_le_pow_right (by norm_num) (by omega)
          simp [hsbit, show ¬ j' < j from by omega]
        · -- the `j > kl` exit: every remaining bit of `t` is clear
          have hjkl : kl < j := by
            by_contra hcon
            exact hcont ⟨by omega, by omega⟩
          have htj' : t.testBit j' = false :=
            Nat.testBit_lt_two_pow
              (lt_of_lt_of_le ht (Nat.pow_le_pow_right (by norm_num) (by omega)))
          simp [htj', show ¬ j' < j from by omega]

/-- Bit-level characterization of `Set::extend` for word-sized inputs. -/
theorem extend_bits (s t : Nat) (hs : s < 2 ^ 63) (ht : t < 2 ^ 63) :
    ∀ j', (RSet.extend s t).testBit j' =
      (t.testBit j' && s.testBit (popCount (t % 2 ^ j'))) := by
  intro j'
  have hsl : s < 2 ^ (RSet.leftmost_element s + 1) := by
    rcases eq_or_ne s 0 with rfl | hs0
    · exact Nat.pos_pow_of_pos _ (by norm_num)
    · obtain ⟨hlm, _⟩ := leftmost_element_bounds s (by omega)
      have := (elog2_spec s (by omega)).2
      calc s < 2 ^ (elog2 s + 1) := this
        _ ≤ 2 ^ (RSet.leftmost_element s + 1) :=
          Nat.pow_le_pow_right (by norm_num) (by omega)
  have htl : t < 2 ^ (RSet.leftmost_element t + 1) := by
    rcases eq_or_ne t 0 with rfl | ht0
    · exact Nat.pos_pow_of_pos _ (by norm_num)
    · obtain ⟨hlm, _⟩ := leftmost_element_bounds t (by omega)
      have := (elog2_spec t (by omega)).2
      calc t < 2 ^ (elog2 t + 1) := this
        _ ≤ 2 ^ (RSet.leftmost_element t + 1) :=
          Nat.pow_le_pow_right (by norm_num) (by omega)
  have hkl : RSet.leftmost_element t ≤ 63 := by
    rcases eq_or_ne t 0 with rfl | ht0
    · show elog2 (f32ofNat 0) ≤ 63
      rw [show f32ofNat 0 = 0 from rfl]
      rw [show elog2 0 = 0 from rfl]
      omega
    · obtain ⟨_, hub⟩ := leftmost_element_bounds t (by omega)
      have := elog2_lt_of_lt t 63 (by omega) ht
      omega
  have hsl63 : RSet.leftmost_element s ≤ 63 := by
    rcases eq_or_ne s 0 with rfl | hs0
    · show elog2 (f32ofNat 0) ≤ 63
      rw [show f32ofNat 0 = 0 from rfl]
      rw [show elog2 0 = 0 from rfl]
      omega
    · obtain ⟨_, hub⟩ := leftmost_element_bounds s (by omega)
      have := elog2_lt_of_lt s 63 (by omega) hs
      omega
  exact extendLoop_bits s t _ _ hsl htl hkl hsl63 (RSet.leftmost_element t + 2) 0 0 0
    (by rw [pow_zero, Nat.mod_one, popCount_zero])
    (fun j'' => by simp [Nat.zero_testBit])
    (by omega) j'

/-- `extend` always lands inside the target pattern. -/
theorem extend_subset (s t : Nat) (hs : s < 2 ^ 63) (ht : t < 2 ^ 63) :
    RSet.extend s t &&& t = RSet.extend s t := by
  apply Nat.eq_of_testBit_eq
  intro j
  rw [Nat.testBit_land, extend_bits s t hs ht j]
  cases htj : t.testBit j <;> simp

/-- Cardinality preservation of `extend` under the strengthened
precondition `s < 2 ^ |t|`: every set bit of `s` indexes an existing set
bit of `t`. -/
theorem popCount_extend (t : Nat) : ∀ s, t < 2 ^ 63 → s < 2 ^ 63 →
    s < 2 ^ popCount t → popCount (RSet.extend s t) = popCount s := by
  induction t using Nat.strong_induction_on with
  | _ t iht =>
    intro s ht hs hst
    rcases eq_or_ne t 0 with rfl | ht0
    · rw [popCount_zero] at hst
      have hs0 : s = 0 := by
        have h1 : (2 : Nat) ^ 0 = 1 := rfl
        omega
      subst hs0
      have hz : RSet.extend 0 0 = 0 := by
        apply Nat.eq_of_testBit_eq
        intro j
        rw [extend_bits 0 0 (by norm_num) (by norm_num) j, Nat.zero_testBit]
        simp [Nat.zero_testBit]
      rw [hz]
    · obtain ⟨hle, hlt⟩ := elog2_spec t (by omega)
      have hpose : (0 : Nat) < 2 ^ elog2 t := Nat.pos_pow_of_pos _ (by norm_num)
      have ht2lt : t % 2 ^ elog2 t < 2 ^ elog2 t := Nat.mod_lt t hpose
      have hdiv1 : t / 2 ^ elog2 t = 1 := by
        apply Nat.div_eq_of_lt_le
        · omega
        · have : (1 + 1) * 2 ^ elog2 t = 2 ^ (elog2 t + 1) := by
            rw [pow_succ]
            ring
          omega
      have hpct : popCount t = 1 + popCount (t % 2 ^ elog2 t) := by
        conv_lhs => rw [← Nat.div_add_mod t (2 ^ elog2 t)]
        rw [hdiv1, popCount_split (elog2 t) 1 _ ht2lt, popCount_one]
      have hposd : (0 : Nat) < 2 ^ popCount (t % 2 ^ elog2 t) :=
        Nat.pos_pow_of_pos _ (by norm_num)
      have hs2lt : s % 2 ^ popCount (t % 2 ^ elog2 t) <
          2 ^ popCount (t % 2 ^ elog2 t) := Nat.mod_lt s hposd
      have hsdm := Nat.div_add_mod s (2 ^ popCount (t % 2 ^ elog2 t))
      have hpow1d : (2 : Nat) ^ (1 + popCount (t % 2 ^ elog2 t)) =
          2 * 2 ^ popCount (t % 2 ^ elog2 t) := by
        rw [pow_add]
        ring
      have hsble : s / 2 ^ popCount (t % 2 ^ elog2 t) ≤ 1 := by
        by_contra hcon
        push_neg at hcon
        have h2 : 2 ^ popCount (t % 2 ^ elog2 t) * 2 ≤
            2 ^ popCount (t % 2 ^ elog2 t) * (s / 2 ^ popCount (t % 2 ^ elog2 t)) :=
          Nat.mul_le_mul_left _ (by omega)
        rw [hpct, hpow1d] at hst
        omega
      have hs2s : s % 2 ^ popCount (t % 2 ^ elog2 t) ≤ s := Nat.mod_le s _
      have ht2t : t % 2 ^ elog2 t ≤ t := Nat.mod_le t _
      have hsub := extend_subset (s % 2 ^ popCount (t % 2 ^ elog2 t)) (t % 2 ^ elog2 t)
        (by omega) (by omega)
      have hR2lt : RSet.extend (s % 2 ^ popCount (t % 2 ^ elog2 t)) (t % 2 ^ elog2 t) <
          2 ^ elog2 t :=
        lt_of_le_of_lt (le_of_subset _ _ hsub) ht2lt
      have hkey : RSet.extend s t =
          2 ^ elog2 t * (s / 2 ^ popCount (t % 2 ^ elog2 t)) +
            RSet.extend (s % 2 ^ popCount (t % 2 ^ elog2 t)) (t % 2 ^ elog2 t) := by
        apply Nat.eq_of_testBit_eq
        intro j
        rw [extend_bits s t hs ht j, testBit_composite (elog2 t) _ _ hR2lt j]
        rcases Nat.lt_trichotomy j (elog2 t) with hj | hj | hj
        · rw [if_pos hj, extend_bits _ _ (by omega) (by omega) j]
          have htb : t.testBit j = (t % 2 ^ elog2 t).testBit j := by
            rw [Nat.testBit_mod_two_pow]
            simp [hj]
          have hmodeq : t % 2 ^ elog2 t % 2 ^ j = t % 2 ^ j :=
            Nat.mod_mod_of_dvd t (pow_dvd_pow 2 (by omega))
          rw [← htb, hmodeq]
          cases htjb : t.testBit j
          · simp
          · have hidx : popCount (t % 2 ^ j) < popCount (t % 2 ^ elog2 t) := by
              have h1 := popCount_mod_lt_of_testBit (t % 2 ^ elog2 t) j
                (by rw [← htb]; exact htjb)
              rw [hmodeq] at h1
              exact h1
            have hsagree : (s % 2 ^ popCount (t % 2 ^ elog2 t)).testBit
                (popCount (t % 2 ^ j)) = s.testBit (popCount (t % 2 ^ j)) := by
              rw [Nat.testBit_mod_two_pow]
              simp [hidx]
            rw [hsagree]
        · have hj' : ¬ j < elog2 t := by omega
          rw [if_neg hj', hj, Nat.sub_self]
          have hte : t.testBit (elog2 t) = true := testBit_elog2 t (by omega)
          rw [hte]
          have hsb0 : (s / 2 ^ popCount (t % 2 ^ elog2 t)).testBit 0 =
              s.testBit (popCount (t % 2 ^ elog2 t)) := by
            rw [Nat.testBit_to_div_mod, Nat.testBit_to_div_mod, pow_zero, Nat.div_one]
          rw [hsb0]
          simp
        · rw [if_neg (by omega)]
          have htjf : t.testBit j = false :=
            Nat.testBit_lt_two_pow
              (lt_of_lt_of_le hlt (Nat.pow_le_pow_right (by norm_num) (by omega)))
          have hsbf : (s / 2 ^ popCount (t % 2 ^ elog2 t)).testBit (j - elog2 t) = false := by
            apply Nat.testBit_lt_two_pow
            calc s / 2 ^ popCount (t % 2 ^ elog2 t) ≤ 1 := hsble
              _ < 2 ^ (j - elog2 t) := by
                calc (1 : Nat) < 2 ^ 1 := by norm_num
                  _ ≤ 2 ^ (j - elog2 t) := Nat.pow_le_pow_right (by norm_num) (by omega)
          rw [htjf, hsbf]
          simp
      rw [hkey, popCount_split (elog2 t) _ _ hR2lt]
      have hIH : popCount (RSet.extend (s % 2 ^ popCount (t % 2 ^ elog2 t))
          (t % 2 ^ elog2 t)) = popCount (s % 2 ^ popCount (t % 2 ^ elog2 t)) :=
        iht (t % 2 ^ elog2 t) (by omega) _ (by omega) (by omega) hs2lt
      rw [hIH]
      have hsplit_s : popCount s = popCount (s / 2 ^ popCount (t % 2 ^ elog2 t)) +
          popCount (s % 2 ^ popCount (t % 2 ^ elog2 t)) := by
        conv_lhs => rw [← hsdm]
        rw [popCount_split _ _ _ hs2lt]
      omega

/-- C6 (corrected): for patterns strictly below `2^63`, `extend` chooses,
for every set bit `i` of `s`, the `i`-th lowest set bit of `t`: bit `j` of
the result is set iff `t` has bit `j` and `s` has bit
`popCount (t mod 2^j)`.  The result is always a subset of `t`, and its
cardinality equals `|s|` under the strengthened precondition `s < 2^|t|`
(every set bit of `s` indexes an existing set bit of `t`).  Both
restrictions are necessary: the claim's own precondition `|s| ≤ |t|` does
not give the cardinality statement, and for `t ≥ 2^64 - 2^39` — where the
`f32`-rounded `leftmost_element` is the word width itself and the masked
shifts of the loop touch bit `0` — the program violates the bit
characterization; see the counterexample for both. -/
theorem C6_extend (s t : Nat) (hs : s < 2 ^ 63) (ht : t < 2 ^ 63) :
    (∀ j, (RSet.extend s t).testBit j =
        (t.testBit j && s.testBit (popCount (t % 2 ^ j)))) ∧
      RSet.extend s t &&& t = RSet.extend s t ∧
      (s < 2 ^ popCount t → popCount (RSet.extend s t) = popCount s) :=
  ⟨extend_bits s t hs ht, extend_subset s t hs ht,
    fun h => popCount_extend t s ht hs h⟩

/-- Witness for C6 at `s = 0b101`, `t = 0b110110`: `extend` selects the
0th and 2nd lowest set bits of `t`, giving `0b010010`. -/
theorem C6_extend_witness :
    RSet.extend 5 54 = 18 ∧ (5 : Nat) < 2 ^ 63 ∧ (54 : Nat) < 2 ^ 63 ∧
      ((∀ j, (RSet.extend 5 54).testBit j =
          ((54 : Nat).testBit j && (5 : Nat).testBit (popCount (54 % 2 ^ j)))) ∧
        RSet.extend 5 54 &&& 54 = RSet.extend 5 54 ∧
        ((5 : Nat) < 2 ^ popCount 54 → popCount (RSet.extend 5 54) = popCount 5)) :=
  ⟨by decide, by norm_num, by norm_num, C6_extend 5 54 (by norm_num) (by norm_num)⟩

/-- C6 counterexample to the claim as frozen, in two parts.  First,
`s = {3}`, `t = {0}` satisfy the claimed precondition `|s| = 1 ≤ 1 = |t|`,
yet `extend` returns the empty set — not a subset of `t` of cardinality 1:
bit 3 of `s` has no matching set bit of `t` to select.  Second, the
word-sized pair `s = {26}`, `t = 2^64 - 2^39 + 1` (bits 0 and 39–63 set)
also satisfies `|s| = 1 ≤ 26 = |t|`, but `leftmost_element t` is the
`f32`-rounded `64`, the loop's masked shifts read and write bit 0, and
`extend` returns `{0}` although `t` has bit 0 and `s` does not have bit
`popCount (t mod 2^0) = 0` — the selection rule demands bit 0 clear, so
the claimed characterization fails beyond `2^63` as well. -/
theorem C6_counterexample :
    (popCount 8 ≤ popCount 1 ∧ RSet.extend 8 1 = 0 ∧
      ¬ popCount (RSet.extend 8 1) = popCount 8) ∧
    (popCount (2 ^ 26) ≤ popCount (2 ^ 64 - 2 ^ 39 + 1) ∧
      RSet.leftmost_element (2 ^ 64 - 2 ^ 39 + 1) = 64 ∧
      RSet.extend (2 ^ 26) (2 ^ 64 - 2 ^ 39 + 1) = 1 ∧
      (RSet.extend (2 ^ 26) (2 ^ 64 - 2 ^ 39 + 1)).testBit 0 = true ∧
      ((2 ^ 64 - 2 ^ 39 + 1 : Nat).testBit 0 &&
        (2 ^ 26 : Nat).testBit (popCount ((2 ^ 64 - 2 ^ 39 + 1) % 2 ^ 0))) = false) := by
  decide

/-- Finding an element of the strict difference: for `Y ⊊ Z` there is a
bit `e` set in `Z`, clear in `Y`, below any width bounding `Z`, and the
removal of `e` from `Z` still contains `Y`. -/
theorem exists_diff_element (Y Z n : Nat) (hn : n ≤ 63) (hZ : Z < 2 ^ n)
    (hYZ : Y &&& Z = Y) (hne : Y ≠ Z) :
    ∃ e, e < n ∧ Z.testBit e = true ∧ Y.testBit e = false ∧
      Y &&& RSet.remove_element Z e = Y ∧
      RSet.remove_element Z e &&& Z = RSet.remove_element Z e ∧
      popCount (RSet.remove_element Z e) + 1 = popCount Z := by
  have hpow : (2 : Nat) ^ n ≤ 2 ^ 63 := Nat.pow_le_pow_right (by norm_num) hn
  have h64 : (2 : Nat) ^ 63 < 2 ^ 64 := by norm_num
  have hZ64 : Z < 2 ^ 64 := by omega
  have hD : Z ^^^ Y ≠ 0 := by
    intro h0
    have h1 := congrArg (· ^^^ Y) h0
    simp only [Nat.xor_assoc, Nat.xor_self, Nat.xor_zero, Nat.zero_xor] at h1
    exact hne h1.symm
  have hDpos : 1 ≤ Z ^^^ Y := Nat.pos_of_ne_zero hD
  have he := testBit_elog2 (Z ^^^ Y) hDpos
  rw [Nat.testBit_xor] at he
  have hsub := testBit_of_subset Y Z hYZ
  have hZe : Z.testBit (elog2 (Z ^^^ Y)) = true := by
    cases hz : Z.testBit (elog2 (Z ^^^ Y))
    · rw [hz] at he
      cases hy : Y.testBit (elog2 (Z ^^^ Y))
      · rw [hy] at he
        simp at he
      · have := hsub (elog2 (Z ^^^ Y))
        rw [hy, hz] at this
        simp at this
    · rfl
  have hYe : Y.testBit (elog2 (Z ^^^ Y)) = false := by
    cases hy : Y.testBit (elog2 (Z ^^^ Y))
    · rfl
    · rw [hy, hZe] at he
      simp at he
  have hen : elog2 (Z ^^^ Y) < n := by
    by_contra hcon
    push_neg at hcon
    have : Z.testBit (elog2 (Z ^^^ Y)) = false :=
      Nat.testBit_lt_two_pow
        (lt_of_lt_of_le hZ (Nat.pow_le_pow_right (by norm_num) hcon))
    rw [this] at hZe
    exact absurd hZe (by simp)
  refine ⟨elog2 (Z ^^^ Y), hen, hZe, hYe, ?_, ?_, ?_⟩
  · apply Nat.eq_of_testBit_eq
    intro j
    rw [Nat.testBit_land, remove_element_testBit Z _ hZ64 (by omega) j]
    cases hyj : Y.testBit j
    · simp
    · have hzj := hsub j
      rw [hyj] at hzj
      simp only [Bool.true_and] at hzj
      rw [hzj]
      have hej : ¬ elog2 (Z ^^^ Y) = j := by
        intro hcon
        rw [hcon] at hYe
        rw [hYe] at hyj
        exact absurd hyj (by simp)
      simp [hej]
  · exact remove_element_subset Z _ hZ64 (by omega)
  · exact popCount_remove_element Z _ hZ64 (by omega) hZe

/-- Bounded rank increase: under the rank axioms, growing a set by `d`
elements raises the rank by at most `d`. -/
theorem rank_drop (M : RMatroid) (hn : M.n ≤ 63)
    (hub : ∀ x, x < 2 ^ M.n → M.rank x ≤ popCount x)
    (hsubm : ∀ x, x < 2 ^ M.n → ∀ y, y < 2 ^ M.n →
      M.rank (x ||| y) + M.rank (x &&& y) ≤ M.rank x + M.rank y) :
    ∀ d Y Z, Y &&& Z = Y → Z < 2 ^ M.n → popCount Z - popCount Y = d →
    M.rank Z ≤ M.rank Y + d := by
  intro d
  induction d with
  | zero =>
    intro Y Z hYZ hZ hd
    have hYle : popCount Y ≤ popCount Z := popCount_le_of_subset Y Z hYZ
    rcases eq_or_ne Y Z with rfl | hne
    · omega
    · have := popCount_lt_of_ssubset Y Z hYZ hne
      omega
  | succ d ih =>
    intro Y Z hYZ hZ hd
    rcases eq_or_ne Y Z with rfl | hne
    · omega
    · obtain ⟨e, hen, hZe, hYe, hYZ', hZ'Z, hpc⟩ :=
        exists_diff_element Y Z M.n hn hZ hYZ hne
      have hZ'lt : RSet.remove_element Z e < 2 ^ M.n :=
        lt_of_le_of_lt (le_of_subset _ Z hZ'Z) hZ
      have h2e : (2 : Nat) ^ e < 2 ^ M.n := Nat.pow_lt_pow_right (by norm_num) hen
      have hor : RSet.remove_element Z e ||| 2 ^ e = Z := by
        have h64 : (2 : Nat) ^ M.n ≤ 2 ^ 63 := Nat.pow_le_pow_right (by norm_num) hn
        have h63 : (2 : Nat) ^ 63 < 2 ^ 64 := by norm_num
        exact (remove_element_lor Z e (by omega) (by omega) hZe).1
      have hunit : M.rank Z ≤ M.rank (RSet.remove_element Z e) + 1 := by
        have hs := hsubm (RSet.remove_element Z e) hZ'lt (2 ^ e) h2e
        rw [hor] at hs
        have hre : M.rank (2 ^ e) ≤ 1 := by
          have := hub (2 ^ e) h2e
          rw [popCount_two_pow] at this
          omega
        omega
      have hih : M.rank (RSet.remove_element Z e) ≤ M.rank Y + d := by
        apply ih Y (RSet.remove_element Z e) ?_ hZ'lt (by omega)
        · exact hYZ'
      omega

/-- Independence is downward closed under the rank axioms. -/
theorem independent_downward (M : RMatroid) (hn : M.n ≤ 63)
    (hub : ∀ x, x < 2 ^ M.n → M.rank x ≤ popCount x)
    (hsubm : ∀ x, x < 2 ^ M.n → ∀ y, y < 2 ^ M.n →
      M.rank (x ||| y) + M.rank (x &&& y) ≤ M.rank x + M.rank y)
    (Y Z : Nat) (hYZ : Y &&& Z = Y) (hZ : Z < 2 ^ M.n)
    (hind : M.rank Z = popCount Z) : M.rank Y = popCount Y := by
  have hYlt : Y < 2 ^ M.n := lt_of_le_of_lt (le_of_subset Y Z hYZ) hZ
  have hYle : popCount Y ≤ popCount Z := popCount_le_of_subset Y Z hYZ
  have hdrop := rank_drop M hn hub hsubm (popCount Z - popCount Y) Y Z hYZ hZ rfl
  have hubY := hub Y hYlt
  omega

/-- Under the rank axioms and `n ≤ 63`, `is_circuit` recognises exactly
the inclusion-minimal dependent subsets of the ground set. -/
theorem circuit_iff_minimal (M : RMatroid) (hn : M.n ≤ 63)
    (hub : ∀ x, x < 2 ^ M.n → M.rank x ≤ popCount x)
    (hmono : ∀ x, x < 2 ^ M.n → ∀ y, y < 2 ^ M.n → x &&& y = x →
      M.rank x ≤ M.rank y)
    (hsubm : ∀ x, x < 2 ^ M.n → ∀ y, y < 2 ^ M.n →
      M.rank (x ||| y) + M.rank (x &&& y) ≤ M.rank x + M.rank y)
    (X : Nat) (hX : X < 2 ^ M.n) :
    M.is_circuit X = true ↔
      (M.rank X < popCount X ∧
        ∀ Y, Y &&& X = Y → Y ≠ X → M.rank Y = popCount Y) := by
  have hpow : (2 : Nat) ^ M.n ≤ 2 ^ 63 := Nat.pow_le_pow_right (by norm_num) hn
  have h63 : (2 : Nat) ^ 63 < 2 ^ 64 := by norm_num
  have hX64 : X < 2 ^ 64 := by omega
  have hubX := hub X hX
  unfold RMatroid.is_circuit RMatroid.is_cycle
  rw [Bool.and_eq_true, beq_iff_eq]
  constructor
  · rintro ⟨hnull, hcyc⟩
    rw [if_neg (show ¬ (X == 0) = true from ?_)] at hcyc
    swap
    · intro hcon
      rw [beq_iff_eq.mp hcon] at hnull
      rw [popCount_zero] at hnull
      omega
    rw [List.all_eq_true] at hcyc
    refine ⟨by omega, ?_⟩
    intro Y hYX hne
    obtain ⟨e, hen, hXe, hYe, hYX', hX'X, hpc⟩ :=
      exists_diff_element Y X M.n hn hX hYX hne
    have hcyce := hcyc e (List.mem_range.mpr hen)
    rw [beq_iff_eq] at hcyce
    have hX'lt : RSet.remove_element X e < 2 ^ M.n :=
      lt_of_le_of_lt (le_of_subset _ X hX'X) hX
    have hX'ind : M.rank (RSet.remove_element X e) =
        popCount (RSet.remove_element X e) := by
      have := hub (RSet.remove_element X e) hX'lt
      omega
    exact independent_downward M hn hub hsubm Y (RSet.remove_element X e)
      hYX' hX'lt hX'ind
  · rintro ⟨hdep, hmin⟩
    have hX0 : X ≠ 0 := by
      intro hcon
      rw [hcon, popCount_zero] at hdep
      omega
    have hXe0 := testBit_elog2 X (Nat.pos_of_ne_zero hX0)
    have he0n : elog2 X < M.n := elog2_lt_of_lt X M.n (Nat.pos_of_ne_zero hX0) hX
    have hpcr := popCount_remove_element X (elog2 X) hX64 (by omega) hXe0
    have hX'X := remove_element_subset X (elog2 X) hX64 (by omega)
    have hX'ne : RSet.remove_element X (elog2 X) ≠ X := by
      intro hcon
      rw [hcon] at hpcr
      omega
    have hX'ind := hmin (RSet.remove_element X (elog2 X)) hX'X hX'ne
    have hX'lt : RSet.remove_element X (elog2 X) < 2 ^ M.n :=
      lt_of_le_of_lt (le_of_subset _ X hX'X) hX
    have hrmono := hmono (RSet.remove_element X (elog2 X)) hX'lt X hX hX'X
    have hrankX : M.rank X = popCount X - 1 := by omega
    refine ⟨by omega, ?_⟩
    rw [if_neg (show ¬ (X == 0) = true from by
      intro hcon
      exact hX0 (beq_iff_eq.mp hcon))]
    rw [List.all_eq_true]
    intro i hi
    rw [beq_iff_eq]
    cases hXi : X.testBit i
    · rw [remove_element_eq_self X i hX64 (by rw [List.mem_range] at hi; omega) hXi]
    · have hi64 : i < 64 := by
        rw [List.mem_range] at hi
        omega
      have hpci := popCount_remove_element X i hX64 hi64 hXi
      have hXiX := remove_element_subset X i hX64 hi64
      have hXine : RSet.remove_element X i ≠ X := by
        intro hcon
        rw [hcon] at hpci
        omega
      have hXiind := hmin (RSet.remove_element X i) hXiX hXine
      omega

/-- No inclusion-minimal dependent set exceeds `k + 1` elements, so the
`k + 1` enumeration bound of `circuits()` excludes no circuit. -/
theorem minimal_size_bound (M : RMatroid) (hn : M.n ≤ 63)
    (hub : ∀ x, x < 2 ^ M.n → M.rank x ≤ popCount x)
    (hmono : ∀ x, x < 2 ^ M.n → ∀ y, y < 2 ^ M.n → x &&& y = x →
      M.rank x ≤ M.rank y)
    (hk : M.k = M.rank (2 ^ M.n - 1))
    (X : Nat) (hX : X < 2 ^ M.n) (hdep : M.rank X < popCount X)
    (hmin : ∀ Y, Y &&& X = Y → Y ≠ X → M.rank Y = popCount Y) :
    popCount X ≤ M.k + 1 := by
  have hpow : (2 : Nat) ^ M.n ≤ 2 ^ 63 := Nat.pow_le_pow_right (by norm_num) hn
  have h63 : (2 : Nat) ^ 63 < 2 ^ 64 := by norm_num
  have hX64 : X < 2 ^ 64 := by omega
  have hX0 : X ≠ 0 := by
    intro hcon
    rw [hcon, popCount_zero] at hdep
    omega
  have hXe0 := testBit_elog2 X (Nat.pos_of_ne_zero hX0)
  have he0n : elog2 X < M.n := elog2_lt_of_lt X M.n (Nat.pos_of_ne_zero hX0) hX
  have hpcr := popCount_remove_element X (elog2 X) hX64 (by omega) hXe0
  have hX'X := remove_element_subset X (elog2 X) hX64 (by omega)
  have hX'ne : RSet.remove_element X (elog2 X) ≠ X := by
    intro hcon
    rw [hcon] at hpcr
    omega
  have hX'ind := hmin (RSet.remove_element X (elog2 X)) hX'X hX'ne
  have hX'lt : RSet.remove_element X (elog2 X) < 2 ^ M.n :=
    lt_of_le_of_lt (le_of_subset _ X hX'X) hX
  have hfull : RSet.remove_element X (elog2 X) &&& (2 ^ M.n - 1) =
      RSet.remove_element X (elog2 X) := by
    rw [land_two_pow_sub_one, Nat.mod_eq_of_lt hX'lt]
  have hfulllt : (2 : Nat) ^ M.n - 1 < 2 ^ M.n := by
    have := Nat.pos_pow_of_pos M.n (show 0 < 2 by norm_num)
    omega
  have := hmono (RSet.remove_element X (elog2 X)) hX'lt (2 ^ M.n - 1) hfulllt hfull
  omega

/-- C2 (corrected): for a ground set strictly below the word width
(`n ≤ 63`) and a rank oracle satisfying the rank axioms with
`k = rank(ground set)`, `circuits()` returns exactly the inclusion-minimal
dependent subsets, each exactly once, in ascending order; the `k + 1` size
bound of the enumeration excludes no circuit.  At `n = 64` — not excluded
by the claim as frozen — the enumeration collapses (`1 << 64` wraps) and
`circuits()` misses every circuit, see the counterexample. -/
theorem C2_circuits_minimal_dependents (M : RMatroid) (f : Nat) (hn : M.n ≤ 63)
    (hub : ∀ x, x < 2 ^ M.n → M.rank x ≤ popCount x)
    (hmono : ∀ x, x < 2 ^ M.n → ∀ y, y < 2 ^ M.n → x &&& y = x →
      M.rank x ≤ M.rank y)
    (hsubm : ∀ x, x < 2 ^ M.n → ∀ y, y < 2 ^ M.n →
      M.rank (x ||| y) + M.rank (x &&& y) ≤ M.rank x + M.rank y)
    (hk : M.k = M.rank (2 ^ M.n - 1))
    (hf : 2 ^ M.n + 1 ≤ f) :
    (∀ X, X ∈ M.circuitsList f ↔
      (X < 2 ^ M.n ∧ M.rank X < popCount X ∧
        ∀ Y, Y &&& X = Y → Y ≠ X → M.rank Y = popCount Y)) ∧
    (M.circuitsList f).Pairwise (· < ·) := by
  have hrun : SIter.run (leIter M.n (M.k + 1)) f =
      (List.range' 0 (2 ^ M.n - 0)).filter
        (fun y => SIter.satisfy_limit ⟨0, M.n, some (M.k + 1), some .le⟩ y) :=
    run_scan M.n (some (M.k + 1)) (some .le) hn (by simp) f 0 (Nat.zero_le _)
      (by omega)
  constructor
  · intro X
    unfold RMatroid.circuitsList
    rw [hrun, List.mem_filter, List.mem_filter, List.mem_range'_1]
    constructor
    · rintro ⟨⟨⟨h0, hlt⟩, hsat⟩, hcirc⟩
      have hX : X < 2 ^ M.n := by omega
      exact ⟨hX, (circuit_iff_minimal M hn hub hmono hsubm X hX).mp hcirc⟩
    · rintro ⟨hX, hdep, hmin⟩
      refine ⟨⟨⟨Nat.zero_le X, by omega⟩, ?_⟩,
        (circuit_iff_minimal M hn hub hmono hsubm X hX).mpr ⟨hdep, hmin⟩⟩
      have hb := minimal_size_bound M hn hub hmono hk X hX hdep hmin
      show SIter.satisfy_limit ⟨0, M.n, some (M.k + 1), some .le⟩ X = true
      rw [show SIter.satisfy_limit ⟨0, M.n, some (M.k + 1), some .le⟩ X =
        decide (popCount X ≤ M.k + 1) from rfl]
      exact decide_eq_true hb
  · unfold RMatroid.circuitsList
    rw [hrun]
    exact List.Pairwise.sublist
      ((List.filter_sublist _).trans (List.filter_sublist _))
      (List.pairwise_lt_range' 0 _ 1)

/-- Witness for C2 on `U(2,4)` with fuel 17. -/
theorem C2_circuits_minimal_dependents_witness :
    (uniformMatroid 2 4).n ≤ 63 ∧
      (∀ x, x < 2 ^ (uniformMatroid 2 4).n →
        (uniformMatroid 2 4).rank x ≤ popCount x) ∧
      (∀ x, x < 2 ^ (uniformMatroid 2 4).n → ∀ y, y < 2 ^ (uniformMatroid 2 4).n →
        x &&& y = x → (uniformMatroid 2 4).rank x ≤ (uniformMatroid 2 4).rank y) ∧
      (∀ x, x < 2 ^ (uniformMatroid 2 4).n → ∀ y, y < 2 ^ (uniformMatroid 2 4).n →
        (uniformMatroid 2 4).rank (x ||| y) + (uniformMatroid 2 4).rank (x &&& y) ≤
          (uniformMatroid 2 4).rank x + (uniformMatroid 2 4).rank y) ∧
      (uniformMatroid 2 4).k = (uniformMatroid 2 4).rank (2 ^ (uniformMatroid 2 4).n - 1) ∧
      2 ^ (uniformMatroid 2 4).n + 1 ≤ 17 ∧
      ((∀ X, X ∈ (uniformMatroid 2 4).circuitsList 17 ↔
        (X < 2 ^ (uniformMatroid 2 4).n ∧
          (uniformMatroid 2 4).rank X < popCount X ∧
          ∀ Y, Y &&& X = Y → Y ≠ X →
            (uniformMatroid 2 4).rank Y = popCount Y)) ∧
      ((uniformMatroid 2 4).circuitsList 17).Pairwise (· < ·)) :=
  ⟨by decide, by decide, by decide, by decide, by decide, by decide,
    C2_circuits_minimal_dependents (uniformMatroid 2 4) 17 (by decide) (by decide)
      (by decide) (by decide) (by decide) (by decide)⟩

/-- `circuits()` of `U(1,64)` is empty for every fuel: at `n = 64` the
enumerator wraps (`1 << 64 = 1`) and yields only the empty set. -/
theorem circuitsList_u164_empty : ∀ f,
    (uniformMatroid 1 64).circuitsList (f + 2) = [] ∧
      (uniformMatroid 1 64).rank 3 < popCount 3 ∧
      (∀ Y, Y &&& 3 = Y → Y ≠ 3 →
        (uniformMatroid 1 64).rank Y = popCount Y) := by
  intro f
  refine ⟨?_, by decide, ?_⟩
  · show (SIter.run (leIter 64 2) (f + 2)).filter
      (fun s => (uniformMatroid 1 64).is_circuit s) = []
    have hrun : SIter.run (leIter 64 2) (f + 2) = [0] := by
      have h1 : rshl 1 64 = 1 := rshl_one_64
      have h2 : wadd 0 1 = 1 := by decide
      simp [SIter.run, SIter.next, SIter.setNext, SIter.scanLoop,
        SIter.satisfy_limit, leIter, h1, h2, popCount_zero]
    rw [hrun]
    have hc : (uniformMatroid 1 64).is_circuit 0 = false := by decide
    simp [hc]
  · intro Y hs hne
    have hY3 : Y ≤ 3 := le_of_subset Y 3 hs
    interval_cases Y
    · decide
    · decide
    · decide
    · exact absurd rfl hne

/-- C2 counterexample to the claim as frozen: `U(1,64)` satisfies the rank
axioms, yet at `n = 64` the enumerator behind `circuits()` wraps and yields
only the empty set, so `circuits()` returns `[]` — missing, for instance,
the inclusion-minimal dependent set `{0,1}`. -/
theorem C2_counterexample :
    (uniformMatroid 1 64).circuitsList 100 = [] ∧
      (uniformMatroid 1 64).rank 3 < popCount 3 ∧
      (∀ Y, Y &&& 3 = Y → Y ≠ 3 →
        (uniformMatroid 1 64).rank Y = popCount Y) := by
  have h := circuitsList_u164_empty 98
  exact ⟨h.1, h.2.1, h.2.2⟩
